import Mathlib

/-!
# Loopy extension: access relations, affine value maps and expression walks

A shallow embedding of `src/loopy/LoopyExtension.cpp`.

* Python objects are embedded as values: a `py::list` is a `List`, a `py::dict` is an
  insertion-ordered association list (`PyDict`), a `py::make_tuple` is a pair, and a
  raised `py::value_error` / `py::cast_error` is the `Except.error` branch.
* A possibly-null `MlirOperation` handle is an `Option Operation`.
* The host IR library that the extension calls into (`printValueAsOperand`,
  `getIndexSet`, `getConstantBound`) is a record of functions, `Host`, so that every
  statement about the binding code holds for any behaviour of the library.
-/

namespace Loopy

/-! ## Host IR values -/

/-- An SSA value of the host IR, identified by its underlying pointer. -/
structure Value where
  ptr : Nat
deriving DecidableEq, Repr

instance : Inhabited Value := ⟨⟨0⟩⟩

/-- The eight kinds of affine expression. -/
inductive AffineExpr where
  | Dim (position : Nat)
  | Symbol (position : Nat)
  | Constant (value : Int)
  | Add (lhs rhs : AffineExpr)
  | Mul (lhs rhs : AffineExpr)
  | Mod (lhs rhs : AffineExpr)
  | FloorDiv (lhs rhs : AffineExpr)
  | CeilDiv (lhs rhs : AffineExpr)
deriving DecidableEq, Repr

/-- An affine map: a signature and an ordered sequence of result expressions. -/
structure AffineMap where
  numDims : Nat
  numSymbols : Nat
  results : List AffineExpr
deriving DecidableEq, Repr

/-- The operation classes the extension distinguishes with `llvm::isa`. -/
inductive OpName where
  | AffineApplyOp
  | AffineLoadOp
  | AffineStoreOp
  | Other (name : String)
deriving DecidableEq, Repr

/-- An integer set guarding an `affine.if`: each constraint is an expression together
with a flag telling whether it is an equality (`== 0`) or an inequality (`>= 0`). -/
structure IntegerSet where
  numDims : Nat
  numSymbols : Nat
  constraints : List (AffineExpr × Bool)
deriving DecidableEq, Repr

/-- An operation enclosing a memory access, as listed by
`getEnclosingAffineForAndIfOps` (outermost first). -/
inductive EnclosingOp where
  | AffineForOp (inductionVar : Value) (lowerBoundMap : AffineMap)
      (lowerBoundOperands : List Value) (upperBoundMap : AffineMap)
      (upperBoundOperands : List Value) (step : Int)
  | AffineIfOp (set : IntegerSet) (operands : List Value)
deriving DecidableEq, Repr

/-- Width of the C++ `unsigned int` used for operand counts and loop counters. -/
def UINT_WIDTH : Nat := 32

/-- A non-null operation of the host IR.

* `map` and `mapOperands` are the affine map attribute and the operands it is applied
  to (for a load or store these operands are the index operands of the access).
* `enclosingOps` is what `getEnclosingAffineForAndIfOps` collects for the operation.
* `verified` is the verifier invariant of `affine.apply`: the operand count equals the
  number of map inputs; `operandCount` is the bound of the operand counter. -/
structure Operation where
  name : OpName
  map : AffineMap
  mapOperands : List Value
  memref : Value
  enclosingOps : List EnclosingOp
  verified : name = OpName.AffineApplyOp →
    mapOperands.length = map.numDims + map.numSymbols
  operandCount : mapOperands.length < 2 ^ UINT_WIDTH

/-- A possibly-null operation handle (`MlirOperation`); `none` is the null handle. -/
abbrev MlirOperation := Option Operation

/-- An `AffineValueMap`: a map bound to an operand list of matching length. -/
structure AffineValueMap where
  map : AffineMap
  operands : List Value
  bound : operands.length = map.numDims + map.numSymbols

/-- `AffineValueMap::getNumDims`. -/
def AffineValueMap.getNumDims (vm : AffineValueMap) : Nat := vm.map.numDims

/-- `AffineValueMap::getNumSymbols`. -/
def AffineValueMap.getNumSymbols (vm : AffineValueMap) : Nat := vm.map.numSymbols

/-- `AffineValueMap::getOperand(i)`: the `i`-th bound operand. -/
def AffineValueMap.getOperand (vm : AffineValueMap) (i : Nat)
    (h : i < vm.operands.length) : Value :=
  vm.operands.get ⟨i, h⟩

/-- `AffineApplyOp::getAffineValueMap`: the applied map with the operands of the op. -/
def Operation.getAffineValueMap (op : Operation) (h : op.name = OpName.AffineApplyOp) :
    AffineValueMap :=
  ⟨op.map, op.mapOperands, op.verified h⟩

/-! ## Python-side objects -/

/-- Python exceptions raised by the extension. -/
inductive PyError where
  | value_error (msg : String)
  | cast_error (msg : String)
deriving DecidableEq, Repr

/-- A `py::dict`: association list in insertion order with unique keys. -/
abbrev PyDict (κ ν : Type) := List (κ × ν)

/-- Item assignment `d[k] = v`: overwrite the value of an existing key in place,
otherwise append a new entry. -/
def PyDict.setItem {κ ν : Type} [DecidableEq κ] : PyDict κ ν → κ → ν → PyDict κ ν
  | [], k, v => [(k, v)]
  | (k', v') :: rest, k, v =>
    if k' = k then (k, v) :: rest else (k', v') :: PyDict.setItem rest k v

/-- Item lookup `d.get(k)`. -/
def PyDict.getItem? {κ ν : Type} [DecidableEq κ] : PyDict κ ν → κ → Option ν
  | [], _ => none
  | (k', v') :: rest, k => if k' = k then some v' else PyDict.getItem? rest k

/-- The keys of a dict, in insertion order. -/
def PyDict.keys {κ ν : Type} (d : PyDict κ ν) : List κ := d.map Prod.fst

/-! ## Constraint systems of the host library -/

/-- Outcome of a host-library routine (`mlir::LogicalResult`). -/
inductive LogicalResult where
  | success
  | failure
deriving DecidableEq, Repr

/-- The kind of constant bound asked of `getConstantBound`. -/
inductive BoundType where
  | LB
  | UB
  | EQ
deriving DecidableEq, Repr

/-- A `FlatAffineValueConstraints`: equalities and inequalities (in `row >= 0` form)
over dimension, symbol and local variables, in that column order, where every
dimension or symbol column may be tagged with the host value it denotes. A row holds
one coefficient per variable followed by the constant term. -/
structure FlatAffineValueConstraints where
  dimValues : List (Option Value)
  symbolValues : List (Option Value)
  numLocals : Nat
  equalities : List (List Int)
  inequalities : List (List Int)
deriving DecidableEq, Repr

/-- The default-constructed, empty constraint system. -/
instance : Inhabited FlatAffineValueConstraints := ⟨⟨[], [], 0, [], []⟩⟩

namespace FlatAffineValueConstraints

/-- Number of dimension variables. -/
def getNumDimVars (c : FlatAffineValueConstraints) : Nat := c.dimValues.length

/-- Number of symbol variables. -/
def getNumSymbolVars (c : FlatAffineValueConstraints) : Nat := c.symbolValues.length

/-- Number of dimension and symbol variables; local variables sit at and after this
position. -/
def getNumDimAndSymbolVars (c : FlatAffineValueConstraints) : Nat :=
  c.getNumDimVars + c.getNumSymbolVars

/-- Total number of variables (columns without the constant one). -/
def getNumVars (c : FlatAffineValueConstraints) : Nat :=
  c.getNumDimAndSymbolVars + c.numLocals

/-- The value tags by position: dimensions first, then symbols. -/
def values (c : FlatAffineValueConstraints) : List (Option Value) :=
  c.dimValues ++ c.symbolValues

/-- `hasValue(pos)`: whether the variable at `pos` is tagged with a host value. -/
def hasValue (c : FlatAffineValueConstraints) (pos : Nat) : Bool :=
  (c.values.getD pos none).isSome

/-- `getValue(pos)`: the host value tagged at `pos`; requires `hasValue(pos)`. -/
def getValue (c : FlatAffineValueConstraints) (pos : Nat) (h : c.hasValue pos = true) :
    Value :=
  (c.values.getD pos none).get h

end FlatAffineValueConstraints

/-- A `FlatAffineRelation`: a constraint system whose dimension variables are split
into domain and range dimensions. -/
structure FlatAffineRelation extends FlatAffineValueConstraints where
  numDomainDims : Nat
  numRangeDims : Nat
deriving DecidableEq, Repr

/-- `MemRefAccess`: the memref and the index operands of a load or store. -/
structure MemRefAccess where
  memref : Value
  indices : List Value
deriving DecidableEq, Repr

/-- The `MemRefAccess(Operation *)` constructor: the index operands of the access are
the map operands of the load or store. -/
def MemRefAccess.ofOperation (op : Operation) : MemRefAccess :=
  ⟨op.memref, op.mapOperands⟩

/-- The routines of the host IR library called by the extension.

* `printValueAsOperand v` is the printed identity of the value `v`;
* `getIndexSet ops domain` builds the iteration domain of the enclosing operations
  `ops` into `domain` and reports success or failure;
* `getConstantBound c kind pos` is the constant bound of kind `kind` of the variable
  at position `pos`, when the system `c` determines one. -/
structure Host where
  printValueAsOperand : Value → String
  getIndexSet : List EnclosingOp → FlatAffineValueConstraints →
    LogicalResult × FlatAffineValueConstraints
  getConstantBound : FlatAffineValueConstraints → BoundType → Nat → Option Int

/-! ## The extension functions -/

/-- `getOpIndexSet(op, indexSet)`: collect the enclosing loops and guards of `op` and
hand them to `getIndexSet`, which fills `indexSet`; the result of `getIndexSet` is
returned to the caller. -/
def getOpIndexSet (host : Host) (op : Operation) (indexSet : FlatAffineValueConstraints) :
    LogicalResult × FlatAffineValueConstraints :=
  let ops := op.enclosingOps
  host.getIndexSet ops indexSet

/-- First loop of `get_affine_value_map`: append the printed identity of the operands
at positions `0 .. getNumDims - 1` to the list `dims`. -/
def valueMapDims (host : Host) (valueMap : AffineValueMap) : List String :=
  (List.range valueMap.getNumDims).attach.foldl
    (fun dims i =>
      let v := valueMap.getOperand i.1
        (by have h := List.mem_range.mp i.2
            have hb := valueMap.bound
            unfold AffineValueMap.getNumDims at h
            omega)
      dims ++ [host.printValueAsOperand v])
    []

/-- Second loop of `get_affine_value_map`: the counter starts at `getNumDims` and
stops at `getNumDims + getNumSymbols`, a sum computed on `unsigned int`. -/
def valueMapSyms (host : Host) (valueMap : AffineValueMap) : List String :=
  (List.range' valueMap.getNumDims
      ((valueMap.getNumDims + valueMap.getNumSymbols) % 2 ^ UINT_WIDTH
        - valueMap.getNumDims)).attach.foldl
    (fun syms i =>
      let v := valueMap.getOperand i.1
        (by have h := List.mem_range'_1.mp i.2
            have hb := valueMap.bound
            have hm := Nat.mod_le (valueMap.map.numDims + valueMap.map.numSymbols)
              (2 ^ UINT_WIDTH)
            unfold AffineValueMap.getNumDims AffineValueMap.getNumSymbols at h
            omega)
      syms ++ [host.printValueAsOperand v])
    []

/-- `get_affine_value_map`: the printed dimension operands and symbol operands of an
`affine.apply` operation. -/
def get_affine_value_map (host : Host) (mlirAffineOp : MlirOperation) :
    Except PyError (List String × List String) :=
  match mlirAffineOp with
  | none => Except.error (PyError.value_error "not an operation")
  | some mlirOp =>
    if h : mlirOp.name = OpName.AffineApplyOp then
      let valueMap := mlirOp.getAffineValueMap h
      let dims := valueMapDims host valueMap
      let syms := valueMapSyms host valueMap
      Except.ok (dims, syms)
    else
      Except.error (PyError.value_error "has to be affine apply op")

/-- The `indices` dict of `get_access_relation`: position of each index operand of the
access mapped to its printed identity. -/
def accessIndices (host : Host) (access : MemRefAccess) : PyDict Nat String :=
  access.indices.enum.foldl
    (fun indices pos_idx =>
      indices.setItem pos_idx.1 (host.printValueAsOperand pos_idx.2))
    []

/-- One `bound` dict of `get_access_relation`: the three constant bounds of the
variable at position `i`, stored under the keys LB, UB and EQ. -/
def boundEntry (host : Host) (domainRel : FlatAffineRelation) (i : Nat) :
    PyDict String (Option Int) :=
  let bound : PyDict String (Option Int) := []
  let bound := bound.setItem "LB"
    (host.getConstantBound domainRel.toFlatAffineValueConstraints BoundType.LB i)
  let bound := bound.setItem "UB"
    (host.getConstantBound domainRel.toFlatAffineValueConstraints BoundType.UB i)
  let bound := bound.setItem "EQ"
    (host.getConstantBound domainRel.toFlatAffineValueConstraints BoundType.EQ i)
  bound

/-- Body of the bounds loop of `get_access_relation` at position `i`. -/
def boundsStep (host : Host) (domainRel : FlatAffineRelation)
    (bounds : PyDict Value (PyDict String (Option Int))) (i : Nat) :
    PyDict Value (PyDict String (Option Int)) :=
  if h : domainRel.hasValue i = true then
    bounds.setItem (domainRel.getValue i h) (boundEntry host domainRel i)
  else
    bounds

/-- The `bounds` dict of `get_access_relation`: the loop over the positions
`0 .. getNumDimAndSymbolVars - 1` of the domain relation. -/
def accessBounds (host : Host) (domainRel : FlatAffineRelation) :
    PyDict Value (PyDict String (Option Int)) :=
  (List.range domainRel.getNumDimAndSymbolVars).foldl (boundsStep host domainRel) []

/-- The domain relation built by `get_access_relation` for a load or store: the
domain filled by `getOpIndexSet` from an empty system, viewed as a relation without
range dimensions. The `LogicalResult` of `getOpIndexSet` is dropped. -/
def accessDomainRel (host : Host) (mlirOp : Operation) : FlatAffineRelation :=
  let domain : FlatAffineValueConstraints := default
  let domain := (getOpIndexSet host mlirOp domain).2
  { toFlatAffineValueConstraints := domain
    numDomainDims := domain.getNumDimVars
    numRangeDims := 0 }

/-- `get_access_relation`: for a load or store, the constant bounds of the tagged
variables of its iteration domain and the printed identities of its index operands.
A non-null handle always unwraps to an operation, so the second null test of the
source cannot fire. -/
def get_access_relation (host : Host) (mlirAffineOp : MlirOperation) :
    Except PyError
      (PyDict Value (PyDict String (Option Int)) × PyDict Nat String) :=
  match mlirAffineOp with
  | none => Except.error (PyError.value_error "not an operation")
  | some mlirOp =>
    if mlirOp.name = OpName.AffineStoreOp ∨ mlirOp.name = OpName.AffineLoadOp then
      let access := MemRefAccess.ofOperation mlirOp
      let indices := accessIndices host access
      let domainRel := accessDomainRel host mlirOp
      let bounds := accessBounds host domainRel
      Except.ok (bounds, indices)
    else
      Except.error
        (PyError.value_error "has to be either affine load op or affine store op")

/-! ## Walking the result expressions of a map -/

/-- Modelled from the spec: the expression traversal of the host library
(`AffineExpr::walk`), which is not in src/. It visits every node of the tree in
post-order: the nodes of the left operand, then those of the right operand, then the
node itself. The callback is a state transformer. -/
def AffineExpr.walk {σ : Type} (callback : σ → AffineExpr → σ) : AffineExpr → σ → σ
  | AffineExpr.Dim p, s => callback s (AffineExpr.Dim p)
  | AffineExpr.Symbol p, s => callback s (AffineExpr.Symbol p)
  | AffineExpr.Constant v, s => callback s (AffineExpr.Constant v)
  | AffineExpr.Add l r, s =>
    callback (AffineExpr.walk callback r (AffineExpr.walk callback l s)) (AffineExpr.Add l r)
  | AffineExpr.Mul l r, s =>
    callback (AffineExpr.walk callback r (AffineExpr.walk callback l s)) (AffineExpr.Mul l r)
  | AffineExpr.Mod l r, s =>
    callback (AffineExpr.walk callback r (AffineExpr.walk callback l s)) (AffineExpr.Mod l r)
  | AffineExpr.FloorDiv l r, s =>
    callback (AffineExpr.walk callback r (AffineExpr.walk callback l s))
      (AffineExpr.FloorDiv l r)
  | AffineExpr.CeilDiv l r, s =>
    callback (AffineExpr.walk callback r (AffineExpr.walk callback l s))
      (AffineExpr.CeilDiv l r)

/-- `LoopyAffineMap.walkExprs`: for every result of the map, in order and together with
its index, walk the result expression and hand every visited node to the callback
with that index. The state `σ` is whatever the callback accumulates. -/
def walkExprs {σ : Type} (self : AffineMap) (callback : σ → Nat → AffineExpr → σ)
    (s : σ) : σ :=
  self.results.enum.foldl
    (fun s idx_expr =>
      let idx := idx_expr.1
      let expr := idx_expr.2
      expr.walk (fun s expr => callback s idx expr) s)
    s

/-- The callback that records its arguments: the log of calls made so far. -/
def recordCall (log : List (Nat × AffineExpr)) (resIdx : Nat) (expr : AffineExpr) :
    List (Nat × AffineExpr) :=
  log ++ [(resIdx, expr)]

/-- The sequence of callback invocations made by `walkExprs`, in order. -/
def walkExprsCalls (self : AffineMap) : List (Nat × AffineExpr) :=
  walkExprs self recordCall []

/-- Number of nodes of an expression tree. -/
def AffineExpr.numNodes : AffineExpr → Nat
  | AffineExpr.Dim _ => 1
  | AffineExpr.Symbol _ => 1
  | AffineExpr.Constant _ => 1
  | AffineExpr.Add l r => l.numNodes + r.numNodes + 1
  | AffineExpr.Mul l r => l.numNodes + r.numNodes + 1
  | AffineExpr.Mod l r => l.numNodes + r.numNodes + 1
  | AffineExpr.FloorDiv l r => l.numNodes + r.numNodes + 1
  | AffineExpr.CeilDiv l r => l.numNodes + r.numNodes + 1

/-- The operands of a node: none for a leaf, left and right for a binary node. -/
def AffineExpr.operands : AffineExpr → Option (AffineExpr × AffineExpr)
  | AffineExpr.Dim _ => none
  | AffineExpr.Symbol _ => none
  | AffineExpr.Constant _ => none
  | AffineExpr.Add l r => some (l, r)
  | AffineExpr.Mul l r => some (l, r)
  | AffineExpr.Mod l r => some (l, r)
  | AffineExpr.FloorDiv l r => some (l, r)
  | AffineExpr.CeilDiv l r => some (l, r)

/-- The node of a tree at a path from the root (`false` descends into the left
operand, `true` into the right one), if the path stays inside the tree. -/
def AffineExpr.nodeAt : AffineExpr → List Bool → Option AffineExpr
  | e, [] => some e
  | e, b :: path =>
    match e.operands with
    | none => none
    | some (l, r) => if b then AffineExpr.nodeAt r path else AffineExpr.nodeAt l path

/-- The paths of all nodes of a tree, listed in post-order. -/
def AffineExpr.postOrderPaths : AffineExpr → List (List Bool)
  | AffineExpr.Dim _ => [[]]
  | AffineExpr.Symbol _ => [[]]
  | AffineExpr.Constant _ => [[]]
  | AffineExpr.Add l r =>
    l.postOrderPaths.map (List.cons false) ++ r.postOrderPaths.map (List.cons true) ++ [[]]
  | AffineExpr.Mul l r =>
    l.postOrderPaths.map (List.cons false) ++ r.postOrderPaths.map (List.cons true) ++ [[]]
  | AffineExpr.Mod l r =>
    l.postOrderPaths.map (List.cons false) ++ r.postOrderPaths.map (List.cons true) ++ [[]]
  | AffineExpr.FloorDiv l r =>
    l.postOrderPaths.map (List.cons false) ++ r.postOrderPaths.map (List.cons true) ++ [[]]
  | AffineExpr.CeilDiv l r =>
    l.postOrderPaths.map (List.cons false) ++ r.postOrderPaths.map (List.cons true) ++ [[]]

/-- The nodes of a tree in post-order: one entry per node occurrence. -/
def AffineExpr.postOrder (e : AffineExpr) : List AffineExpr :=
  e.postOrderPaths.filterMap e.nodeAt

/-! ## Casting an affine expression to its Python wrapper -/

/-- The expression classes listed by `FOR_ALL_EXPR_TYPES`. -/
inductive ExprType where
  | Dim
  | Symbol
  | Constant
  | Add
  | Mul
  | Mod
  | FloorDiv
  | CeilDiv
  | Binary
deriving DecidableEq, Repr

/-- The list `FOR_ALL_EXPR_TYPES`, in the order of the source. -/
def FOR_ALL_EXPR_TYPES : List ExprType :=
  [ExprType.Dim, ExprType.Symbol, ExprType.Constant, ExprType.Add, ExprType.Mul,
   ExprType.Mod, ExprType.FloorDiv, ExprType.CeilDiv, ExprType.Binary]

/-- The stringification `#TTT` of an expression class. -/
def ExprType.toString : ExprType → String
  | ExprType.Dim => "Dim"
  | ExprType.Symbol => "Symbol"
  | ExprType.Constant => "Constant"
  | ExprType.Add => "Add"
  | ExprType.Mul => "Mul"
  | ExprType.Mod => "Mod"
  | ExprType.FloorDiv => "FloorDiv"
  | ExprType.CeilDiv => "CeilDiv"
  | ExprType.Binary => "Binary"

/-- Modelled from the spec: the kind tests `mlirAffineExprIsA##TTT` of the host C API,
which are not in src/. Each of the eight variant tests holds exactly of the
expressions of that variant of the data model; the test for the generic binary class
is left to the parameter `isABinary`. -/
def mlirAffineExprIsA (isABinary : AffineExpr → Bool) : ExprType → AffineExpr → Bool
  | ExprType.Dim, AffineExpr.Dim _ => true
  | ExprType.Symbol, AffineExpr.Symbol _ => true
  | ExprType.Constant, AffineExpr.Constant _ => true
  | ExprType.Add, AffineExpr.Add _ _ => true
  | ExprType.Mul, AffineExpr.Mul _ _ => true
  | ExprType.Mod, AffineExpr.Mod _ _ => true
  | ExprType.FloorDiv, AffineExpr.FloorDiv _ _ => true
  | ExprType.CeilDiv, AffineExpr.CeilDiv _ _ => true
  | ExprType.Binary, e => isABinary e
  | _, _ => false

/-- The expression class of the variant of an expression. -/
def AffineExpr.exprType : AffineExpr → ExprType
  | AffineExpr.Dim _ => ExprType.Dim
  | AffineExpr.Symbol _ => ExprType.Symbol
  | AffineExpr.Constant _ => ExprType.Constant
  | AffineExpr.Add _ _ => ExprType.Add
  | AffineExpr.Mul _ _ => ExprType.Mul
  | AffineExpr.Mod _ _ => ExprType.Mod
  | AffineExpr.FloorDiv _ _ => ExprType.FloorDiv
  | AffineExpr.CeilDiv _ _ => ExprType.CeilDiv

/-- A Python wrapper object: the name of its class and the wrapped expression. -/
structure PyAffineExpr where
  className : String
  expr : AffineExpr
deriving DecidableEq, Repr

/-- The wrapper built by one expansion of `DEFINE_SUB_EXPR(TTT)`: an instance of the
Python class named Affine, `#TTT`, Expr. -/
def subExprWrapper (t : ExprType) (v : AffineExpr) : PyAffineExpr :=
  ⟨"Affine" ++ t.toString ++ "Expr", v⟩

/-- `type_caster<MlirAffineExpr>::cast`: the expansions of `DEFINE_SUB_EXPR` over
`FOR_ALL_EXPR_TYPES` form a chain of tests, the first that holds returns its wrapper,
and a cast error is raised when none holds. -/
def cast (isABinary : AffineExpr → Bool) (v : AffineExpr) : Except PyError PyAffineExpr :=
  match FOR_ALL_EXPR_TYPES.find? (fun t => mlirAffineExprIsA isABinary t v) with
  | some t => Except.ok (subExprWrapper t v)
  | none =>
    Except.error
      (PyError.cast_error
        "Invalid AffineExpr type when attempting to create an AffineExpr")

/-! ## The constraint system and the iteration domain builder, from the specification

The host library routines `getIndexSet` and `getConstantBound` are not part of the
sources; the definitions of this section follow sections 4.3 and 4.4 of the
specification. -/

namespace Model

/-- Modelled from the spec: zero-extension of a row in a new column (section 4.3,
existing rows are zero-extended in the new column); the library code is not in src/. -/
def insertColumn (col : Nat) (row : List Int) : List Int :=
  row.take col ++ [0] ++ row.drop col

/-- Modelled from the spec: `appendDimVar` (section 4.3), not in src/: a new
dimension variable after the existing dimensions, tagged with `tag`. -/
def appendDimVar (c : FlatAffineValueConstraints) (tag : Option Value) :
    FlatAffineValueConstraints :=
  { c with
    dimValues := c.dimValues ++ [tag]
    equalities := c.equalities.map (insertColumn c.getNumDimVars)
    inequalities := c.inequalities.map (insertColumn c.getNumDimVars) }

/-- Modelled from the spec: `appendSymbolVar` (section 4.3), not in src/: a new
symbol variable after the existing symbols, tagged with `tag`. -/
def appendSymbolVar (c : FlatAffineValueConstraints) (tag : Option Value) :
    FlatAffineValueConstraints :=
  { c with
    symbolValues := c.symbolValues ++ [tag]
    equalities := c.equalities.map (insertColumn c.getNumDimAndSymbolVars)
    inequalities := c.inequalities.map (insertColumn c.getNumDimAndSymbolVars) }

/-- Modelled from the spec: `addEquality` (section 4.3), not in src/: the row length
must equal the number of variables plus one, otherwise the row is refused. -/
def addEquality (c : FlatAffineValueConstraints) (row : List Int) :
    Option FlatAffineValueConstraints :=
  if row.length = c.getNumVars + 1 then
    some { c with equalities := c.equalities ++ [row] }
  else none

/-- Modelled from the spec: `addInequality` (section 4.3), not in src/: the row
length must equal the number of variables plus one, otherwise the row is refused. -/
def addInequality (c : FlatAffineValueConstraints) (row : List Int) :
    Option FlatAffineValueConstraints :=
  if row.length = c.getNumVars + 1 then
    some { c with inequalities := c.inequalities ++ [row] }
  else none

/-- Modelled from the spec: the column of the variable tagged with `v` among the tags
`tags` counted from column `start` (the external-identity lookup of section 4.3), not
in src/. -/
def findTag (v : Value) : List (Option Value) → Nat → Option Nat
  | [], _ => none
  | t :: rest, start => if t = some v then some start else findTag v rest (start + 1)

/-- Modelled from the spec: the column of the dimension or symbol variable tagged with
the value `v`, if there is one (section 4.3), not in src/. -/
def findVar (c : FlatAffineValueConstraints) (v : Value) : Option Nat :=
  findTag v c.values 0

/-- Modelled from the spec: make sure every operand of a bound or guard has a column,
allocating a new symbol column the first time a value is seen (section 4.4), not in
src/. -/
def ensureOperands (c : FlatAffineValueConstraints) (operands : List Value) :
    FlatAffineValueConstraints :=
  operands.foldl
    (fun c v =>
      match findVar c v with
      | some _ => c
      | none => appendSymbolVar c (some v))
    c

/-- Modelled from the spec: the row with coefficient `a` in column `col`, zero in the
other `numVars` variable columns, and constant term `k`; not in src/. -/
def unitRow (numVars col : Nat) (a k : Int) : List Int :=
  (List.range numVars).map (fun j => if j = col then a else 0) ++ [k]

/-- Modelled from the spec: whether all variable coefficients of a row are zero, that
is, whether the row is a constant (section 3, `Mul` needs a constant operand); not in
src/. -/
def isConstantRow (row : List Int) : Bool :=
  row.dropLast.all (fun a => a = 0)

/-- Modelled from the spec: remapping of a bound expression onto the columns of the
system (section 4.4), not in src/. `cols` holds the column of every operand of the
map, its `numDims` dimension operands first. The result is the coefficient row of the
expression, or nothing when the expression refers to an operand out of range or is
not a linear function of its operands. -/
def flattenExpr (numVars : Nat) (cols : List Nat) (numDims : Nat) :
    AffineExpr → Option (List Int)
  | AffineExpr.Dim k => (cols.get? k).map (fun col => unitRow numVars col 1 0)
  | AffineExpr.Symbol k =>
    (cols.get? (numDims + k)).map (fun col => unitRow numVars col 1 0)
  | AffineExpr.Constant v => some (unitRow numVars numVars 0 v)
  | AffineExpr.Add l r =>
    match flattenExpr numVars cols numDims l, flattenExpr numVars cols numDims r with
    | some a, some b => some (List.zipWith (fun x y => x + y) a b)
    | _, _ => none
  | AffineExpr.Mul l r =>
    match flattenExpr numVars cols numDims l, flattenExpr numVars cols numDims r with
    | some a, some b =>
      if isConstantRow a then some (b.map (fun y => a.getLastD 0 * y))
      else if isConstantRow b then some (a.map (fun x => x * b.getLastD 0))
      else none
    | _, _ => none
  | AffineExpr.Mod _ _ => none
  | AffineExpr.FloorDiv _ _ => none
  | AffineExpr.CeilDiv _ _ => none

/-- Modelled from the spec: the columns of a list of operands in a system where each
of them has one (section 4.4), not in src/. -/
def operandColumns (c : FlatAffineValueConstraints) (operands : List Value) :
    Option (List Nat) :=
  operands.mapM (findVar c)

/-- Which side of a loop a bound constrains. -/
inductive BoundSide where
  | lower
  | upper
deriving DecidableEq, Repr

/-- Modelled from the spec: the inequality row of one bound expression of a loop
(section 4.4), not in src/. For a lower bound `e` the row states
`inductionVar - e >= 0`; for an upper bound `e` of the half-open range it states
`e - 1 - inductionVar >= 0`. -/
def boundRow (numVars ivCol : Nat) (side : BoundSide) (e : List Int) : List Int :=
  match side with
  | BoundSide.lower =>
    List.zipWith (fun x y => x - y) (unitRow numVars ivCol 1 0) e
  | BoundSide.upper =>
    List.zipWith (fun x y => x - y) e (unitRow numVars ivCol 1 1)

/-- Modelled from the spec: add the constraints of one bound map of a loop whose
induction variable sits in column `ivCol` (section 4.4), not in src/. The operands
get their columns first, then every result expression of the map is remapped and
added as an inequality. The system built so far is returned together with the
outcome, also when a result expression cannot be remapped. -/
def addLoopBound (c : FlatAffineValueConstraints) (ivCol : Nat) (side : BoundSide)
    (map : AffineMap) (operands : List Value) :
    LogicalResult × FlatAffineValueConstraints :=
  let c := ensureOperands c operands
  match operandColumns c operands with
  | none => (LogicalResult.failure, c)
  | some cols =>
    map.results.foldl
      (fun acc e =>
        match acc with
        | (LogicalResult.failure, c) => (LogicalResult.failure, c)
        | (LogicalResult.success, c) =>
          match flattenExpr c.getNumVars cols map.numDims e with
          | none => (LogicalResult.failure, c)
          | some row =>
            match addInequality c (boundRow c.getNumVars ivCol side row) with
            | none => (LogicalResult.failure, c)
            | some c => (LogicalResult.success, c))
      (LogicalResult.success, c)

/-- Modelled from the spec: add the constraints of a guard (section 4.4), not in
src/: the operands get their columns, then every constraint of the integer set is
remapped and added as an equality or an inequality, without a new dimension. -/
def addGuard (c : FlatAffineValueConstraints) (set : IntegerSet) (operands : List Value) :
    LogicalResult × FlatAffineValueConstraints :=
  let c := ensureOperands c operands
  match operandColumns c operands with
  | none => (LogicalResult.failure, c)
  | some cols =>
    set.constraints.foldl
      (fun acc con =>
        match acc with
        | (LogicalResult.failure, c) => (LogicalResult.failure, c)
        | (LogicalResult.success, c) =>
          match flattenExpr c.getNumVars cols set.numDims con.1 with
          | none => (LogicalResult.failure, c)
          | some row =>
            match (if con.2 then addEquality c row else addInequality c row) with
            | none => (LogicalResult.failure, c)
            | some c => (LogicalResult.success, c))
      (LogicalResult.success, c)

/-- Modelled from the spec: the step of the iteration domain builder for one
enclosing operation (section 4.4), not in src/. A loop appends one dimension variable
tagged with its induction variable and adds its lower-bound and upper-bound
constraints; a guard adds its constraints. The step of a loop is not used. -/
def addEnclosingOp (c : FlatAffineValueConstraints) :
    EnclosingOp → LogicalResult × FlatAffineValueConstraints
  | EnclosingOp.AffineForOp iv lbMap lbOperands ubMap ubOperands _ =>
    let ivCol := c.getNumDimVars
    let c := appendDimVar c (some iv)
    match addLoopBound c ivCol BoundSide.lower lbMap lbOperands with
    | (LogicalResult.failure, c) => (LogicalResult.failure, c)
    | (LogicalResult.success, c) => addLoopBound c ivCol BoundSide.upper ubMap ubOperands
  | EnclosingOp.AffineIfOp set operands => addGuard c set operands

/-- Modelled from the spec: the iteration domain builder `buildIterationDomain`
(section 4.4), which stands for `getIndexSet` of the host library, not in src/. It
starts from an empty system (the incoming contents of `domain` are dropped) and
processes the enclosing operations outermost first, stopping at the first one that
cannot be added. -/
def getIndexSet (ops : List EnclosingOp) (_domain : FlatAffineValueConstraints) :
    LogicalResult × FlatAffineValueConstraints :=
  ops.foldl
    (fun acc op =>
      match acc with
      | (LogicalResult.failure, c) => (LogicalResult.failure, c)
      | (LogicalResult.success, c) => addEnclosingOp c op)
    (LogicalResult.success, default)

/-- Modelled from the spec: one step of successive elimination (section 4.3), not in
src/: project the variable in column `j` out of a list of inequality rows, by
combining every row with a positive coefficient in column `j` with every row with a
negative one, with integer multipliers, and keeping the rows that do not mention the
variable. -/
def eliminateVar (j : Nat) (rows : List (List Int)) : List (List Int) :=
  let zero := rows.filter (fun r => r.getD j 0 = 0)
  let pos := rows.filter (fun r => 0 < r.getD j 0)
  let neg := rows.filter (fun r => r.getD j 0 < 0)
  zero ++ pos.flatMap (fun p => neg.map (fun n =>
    List.zipWith (fun x y => (- n.getD j 0) * x + p.getD j 0 * y) p n))

/-- Modelled from the spec: the inequality rows of a system, every equality being
the pair of inequalities `row >= 0` and `-row >= 0` (section 4.3); not in src/. -/
def allInequalities (c : FlatAffineValueConstraints) : List (List Int) :=
  c.inequalities ++ c.equalities ++ c.equalities.map (fun r => r.map (fun x => - x))

/-- Modelled from the spec: the system projected onto the variable at `pos` by
eliminating all other variables one after the other (section 4.3); not in src/. -/
def projectOnto (c : FlatAffineValueConstraints) (pos : Nat) : List (List Int) :=
  ((List.range c.getNumVars).filter (fun j => j ≠ pos)).foldl
    (fun rows j => eliminateVar j rows) (allInequalities c)

/-- Modelled from the spec: the greatest of a list of integers, if any; not in src/. -/
def greatest? : List Int → Option Int
  | [] => none
  | x :: xs => some (xs.foldl max x)

/-- Modelled from the spec: the least of a list of integers, if any; not in src/. -/
def least? : List Int → Option Int
  | [] => none
  | x :: xs => some (xs.foldl min x)

/-- Modelled from the spec: the tight integer lower limit that the single-variable
rows `a * x + k >= 0` with `a > 0` put on `x`, namely the greatest `ceil (-k / a)`
(section 4.3); not in src/. -/
def tightLower (rows : List (List Int)) (pos : Nat) : Option Int :=
  greatest? ((rows.filter (fun r => 0 < r.getD pos 0)).map
    (fun r => - (r.getLastD 0 / r.getD pos 0)))

/-- Modelled from the spec: the tight integer upper limit that the single-variable
rows `a * x + k >= 0` with `a < 0` put on `x`, namely the least `floor (k / -a)`
(section 4.3); not in src/. -/
def tightUpper (rows : List (List Int)) (pos : Nat) : Option Int :=
  least? ((rows.filter (fun r => r.getD pos 0 < 0)).map
    (fun r => r.getLastD 0 / (- r.getD pos 0)))

/-- Modelled from the spec: whether the projected system is seen to be infeasible: it
holds a trivially false row (`k >= 0` with `k < 0`), or its lower limit lies above
its upper limit (sections 4.3 and 7); not in src/. -/
def infeasible (rows : List (List Int)) (pos : Nat) : Bool :=
  rows.any (fun r => r.getD pos 0 = 0 ∧ r.getLastD 0 < 0) ||
  (match tightLower rows pos, tightUpper rows pos with
   | some lo, some hi => decide (hi < lo)
   | _, _ => false)

/-- Modelled from the spec: `getConstantBound` (section 4.3), not in src/. All other
variables are projected out; an infeasible system has no bound of any kind; the lower
and upper bounds are the tight integer limits of the single-variable system, when it
has them, and the equality bound is their common value, when they agree. -/
def getConstantBound (c : FlatAffineValueConstraints) (kind : BoundType) (pos : Nat) :
    Option Int :=
  let rows := projectOnto c pos
  if infeasible rows pos then none
  else
    match kind with
    | BoundType.LB => tightLower rows pos
    | BoundType.UB => tightUpper rows pos
    | BoundType.EQ =>
      match tightLower rows pos, tightUpper rows pos with
      | some lo, some hi => if lo = hi then some lo else none
      | _, _ => none

/-- The host whose library routines are the ones described by the specification. -/
def host (printValueAsOperand : Value → String) : Host :=
  { printValueAsOperand := printValueAsOperand
    getIndexSet := getIndexSet
    getConstantBound := getConstantBound }

end Model

/-! ## Sample inputs -/

/-- A printer of value identities used in the examples. -/
def samplePrint (v : Value) : String :=
  match v.ptr with
  | 0 => "%arg0"
  | 1 => "%arg1"
  | 2 => "%arg2"
  | _ => "%v"

/-- The example host: the library routines of the specification with `samplePrint`. -/
def sampleHost : Host := Model.host samplePrint

/-- The map `(d0)[s0] -> (d0 + s0)`. -/
def sampleMap : AffineMap :=
  ⟨1, 1, [AffineExpr.Add (AffineExpr.Dim 0) (AffineExpr.Symbol 0)]⟩

/-- The constant map `() -> (v)`. -/
def constantMap (v : Int) : AffineMap := ⟨0, 0, [AffineExpr.Constant v]⟩

/-- The loop `affine.for iv = 0 to 10` with unit step. -/
def loopZeroToTen (iv : Value) : EnclosingOp :=
  EnclosingOp.AffineForOp iv (constantMap 0) [] (constantMap 10) [] 1

/-- An `affine.apply` of `sampleMap` to the values 1 and 2. -/
def sampleApplyOp : Operation :=
  { name := OpName.AffineApplyOp
    map := sampleMap
    mapOperands := [⟨1⟩, ⟨2⟩]
    memref := ⟨0⟩
    enclosingOps := []
    verified := fun _ => rfl
    operandCount := by decide }

/-- An `affine.load` from memref 0 at index `%1`, inside `affine.for %1 = 0 to 10`. -/
def sampleLoadOp : Operation :=
  { name := OpName.AffineLoadOp
    map := ⟨1, 0, [AffineExpr.Dim 0]⟩
    mapOperands := [⟨1⟩]
    memref := ⟨0⟩
    enclosingOps := [loopZeroToTen ⟨1⟩]
    verified := fun h => by cases h
    operandCount := by decide }

/-- An operation that is neither a load, a store nor an apply. -/
def sampleOtherOp : Operation :=
  { name := OpName.Other "arith.addi"
    map := ⟨0, 0, []⟩
    mapOperands := []
    memref := ⟨0⟩
    enclosingOps := []
    verified := fun h => by cases h
    operandCount := by decide }

end Loopy

namespace Loopy

/-- The loop `affine.for iv = 0 to s0 * s1` over the symbols `m` and `n`; its upper
bound is not a linear function of its operands. -/
def loopToProduct (iv m n : Value) : EnclosingOp :=
  EnclosingOp.AffineForOp iv (constantMap 0) []
    ⟨0, 2, [AffineExpr.Mul (AffineExpr.Symbol 0) (AffineExpr.Symbol 1)]⟩ [m, n] 1

/-- An `affine.load` at index `%1`, inside `affine.for %1 = 0 to %2 * %3`. -/
def sampleProductLoadOp : Operation :=
  { name := OpName.AffineLoadOp
    map := ⟨1, 0, [AffineExpr.Dim 0]⟩
    mapOperands := [⟨1⟩]
    memref := ⟨0⟩
    enclosingOps := [loopToProduct ⟨1⟩ ⟨2⟩ ⟨3⟩]
    verified := fun h => by cases h
    operandCount := by decide }

/-! ## Auxiliary facts on lists and dicts -/

theorem foldl_append_singleton {α β : Type} (f : α → β) (l : List α) (init : List β) :
    l.foldl (fun acc a => acc ++ [f a]) init = init ++ l.map f := by
  induction l generalizing init with
  | nil => simp
  | cons a l ih => simp [ih]

theorem attach_map_get (ops : List Value) (f : Value → String) (l : List Nat)
    (hl : ∀ i ∈ l, i < ops.length) :
    l.attach.map (fun i => f (ops.get ⟨i.1, hl i.1 i.2⟩)) =
      l.map (fun i => f (ops.getD i default)) := by
  rw [← List.attach_map_val l (fun i => f (ops.getD i default))]
  apply List.map_congr_left
  intro i _
  have hi := hl i.1 i.2
  simp [List.getD_eq_getElem?_getD, List.getElem?_eq_getElem hi]

theorem map_range'_getD (ops : List Value) (f : Value → String) (d n : Nat)
    (h : d + n ≤ ops.length) :
    (List.range' d n).map (fun i => f (ops.getD i default)) =
      ((ops.drop d).take n).map f := by
  apply List.ext_getElem
  · simp; omega
  · intro k h1 h2
    simp at h1
    have hk : d + k < ops.length := by omega
    simp [List.getD_eq_getElem?_getD, List.getElem?_eq_getElem hk]

theorem valueMapDims_eq (host : Host) (vm : AffineValueMap) :
    valueMapDims host vm = (vm.operands.take vm.map.numDims).map host.printValueAsOperand := by
  unfold valueMapDims
  rw [foldl_append_singleton
    (fun i : {x // x ∈ List.range vm.getNumDims} =>
      host.printValueAsOperand (vm.getOperand i.1 _))]
  simp only [AffineValueMap.getOperand, List.nil_append]
  have hb := vm.bound
  rw [attach_map_get vm.operands host.printValueAsOperand (List.range vm.getNumDims)
    (fun i hi => by
      have h := List.mem_range.mp hi
      unfold AffineValueMap.getNumDims at h
      omega)]
  have := map_range'_getD vm.operands host.printValueAsOperand 0 vm.map.numDims (by omega)
  simpa [List.range_eq_range', AffineValueMap.getNumDims] using this

theorem valueMapSyms_eq (host : Host) (vm : AffineValueMap)
    (hlt : vm.operands.length < 2 ^ UINT_WIDTH) :
    valueMapSyms host vm = (vm.operands.drop vm.map.numDims).map host.printValueAsOperand := by
  unfold valueMapSyms
  rw [foldl_append_singleton
    (fun i : {x // x ∈ List.range' vm.getNumDims
        ((vm.getNumDims + vm.getNumSymbols) % 2 ^ UINT_WIDTH - vm.getNumDims)} =>
      host.printValueAsOperand (vm.getOperand i.1 _))]
  simp only [AffineValueMap.getOperand, List.nil_append]
  have hb := vm.bound
  have hmod : (vm.getNumDims + vm.getNumSymbols) % 2 ^ UINT_WIDTH - vm.getNumDims
      = vm.map.numSymbols := by
    unfold AffineValueMap.getNumDims AffineValueMap.getNumSymbols
    rw [Nat.mod_eq_of_lt (by omega)]
    omega
  rw [attach_map_get vm.operands host.printValueAsOperand _
    (fun i hi => by
      have h := List.mem_range'_1.mp hi
      rw [hmod] at h
      unfold AffineValueMap.getNumDims at h
      omega)]
  rw [hmod]
  have := map_range'_getD vm.operands host.printValueAsOperand vm.map.numDims
    vm.map.numSymbols (by omega)
  rw [AffineValueMap.getNumDims, this]
  congr 1
  apply List.take_of_length_le
  simp
  omega

/-! ## Error contracts of the two entry points -/

/-- C1: for a non-null operation that is neither an affine store nor an affine load,
`get_access_relation` raises the value error "has to be either affine load op or
affine store op" and returns no result; for a non-null affine load or store it
returns a result, so it does not raise that error. -/
theorem get_access_relation_shape_error (host : Host) (op : Operation) :
    (op.name ≠ OpName.AffineStoreOp ∧ op.name ≠ OpName.AffineLoadOp →
      get_access_relation host (some op) =
          Except.error
            (PyError.value_error "has to be either affine load op or affine store op") ∧
        ∀ result, get_access_relation host (some op) ≠ Except.ok result) ∧
    (op.name = OpName.AffineLoadOp ∨ op.name = OpName.AffineStoreOp →
      (∃ result, get_access_relation host (some op) = Except.ok result) ∧
        get_access_relation host (some op) ≠
          Except.error
            (PyError.value_error "has to be either affine load op or affine store op")) := by
  constructor
  · rintro ⟨hs, hl⟩
    have hn : ¬ (op.name = OpName.AffineStoreOp ∨ op.name = OpName.AffineLoadOp) := by
      rintro (h | h)
      · exact hs h
      · exact hl h
    simp [get_access_relation, hn]
  · intro h
    have hn : op.name = OpName.AffineStoreOp ∨ op.name = OpName.AffineLoadOp := h.symm
    simp [get_access_relation, hn]

/-- Witness of C1 on a sample operation of another kind and on a sample load. -/
theorem get_access_relation_shape_error_witness :
    (get_access_relation sampleHost (some sampleOtherOp) =
        Except.error
          (PyError.value_error "has to be either affine load op or affine store op") ∧
      ∀ result, get_access_relation sampleHost (some sampleOtherOp) ≠ Except.ok result) ∧
    ((∃ result, get_access_relation sampleHost (some sampleLoadOp) = Except.ok result) ∧
      get_access_relation sampleHost (some sampleLoadOp) ≠
        Except.error
          (PyError.value_error "has to be either affine load op or affine store op")) :=
  ⟨(get_access_relation_shape_error sampleHost sampleOtherOp).1
      ⟨by decide, by decide⟩,
   (get_access_relation_shape_error sampleHost sampleLoadOp).2 (Or.inl rfl)⟩

/-- C2: `get_affine_value_map` returns a (dims, syms) result if and only if the
operation is non-null and is an affine-apply operation; for every other non-null
operation it raises the value error "has to be affine apply op", and for a null
operation it raises "not an operation". -/
theorem get_affine_value_map_result_iff (host : Host) (mlirAffineOp : MlirOperation) :
    ((∃ result, get_affine_value_map host mlirAffineOp = Except.ok result) ↔
      ∃ op, mlirAffineOp = some op ∧ op.name = OpName.AffineApplyOp) ∧
    (∀ op, mlirAffineOp = some op → op.name ≠ OpName.AffineApplyOp →
      get_affine_value_map host mlirAffineOp =
        Except.error (PyError.value_error "has to be affine apply op")) ∧
    (mlirAffineOp = none →
      get_affine_value_map host mlirAffineOp =
        Except.error (PyError.value_error "not an operation")) := by
  refine ⟨?_, ?_, ?_⟩
  · cases mlirAffineOp with
    | none => simp [get_affine_value_map]
    | some op =>
      by_cases h : op.name = OpName.AffineApplyOp
      · simp [get_affine_value_map, h]
      · simp [get_affine_value_map, h]
  · intro op ho hn
    subst ho
    simp [get_affine_value_map, hn]
  · intro ho
    subst ho
    simp [get_affine_value_map]

/-- Witness of C2 on a sample apply operation, a sample operation of another kind and
the null handle. -/
theorem get_affine_value_map_result_iff_witness :
    (∃ result, get_affine_value_map sampleHost (some sampleApplyOp) = Except.ok result) ∧
    get_affine_value_map sampleHost (some sampleOtherOp) =
      Except.error (PyError.value_error "has to be affine apply op") ∧
    get_affine_value_map sampleHost none =
      Except.error (PyError.value_error "not an operation") :=
  ⟨(get_affine_value_map_result_iff sampleHost (some sampleApplyOp)).1.2
      ⟨sampleApplyOp, rfl, rfl⟩,
   (get_affine_value_map_result_iff sampleHost (some sampleOtherOp)).2.1
      sampleOtherOp rfl (by decide),
   (get_affine_value_map_result_iff sampleHost none).2.2 rfl⟩

/-- C3: for an affine-apply operation whose map has `numDims = d` and
`numSymbols = s` (its operand list `ops` then has length `d + s`),
`get_affine_value_map` returns `(dims, syms)` with `dims` of length `d` and `syms`
of length `s`, where `dims[k]` is the printed identity of `ops[k]` for `k < d` and
`syms[k]` is the printed identity of `ops[d + k]` for `k < s`, so that
`dims ++ syms` is the printed operand list in order. -/
theorem get_affine_value_map_operands (host : Host) (op : Operation)
    (h : op.name = OpName.AffineApplyOp) :
    op.mapOperands.length = op.map.numDims + op.map.numSymbols ∧
    ∃ dims syms, get_affine_value_map host (some op) = Except.ok (dims, syms) ∧
      dims.length = op.map.numDims ∧
      syms.length = op.map.numSymbols ∧
      (∀ k, k < op.map.numDims →
        ∃ v, op.mapOperands[k]? = some v ∧
          dims[k]? = some (host.printValueAsOperand v)) ∧
      (∀ k, k < op.map.numSymbols →
        ∃ v, op.mapOperands[op.map.numDims + k]? = some v ∧
          syms[k]? = some (host.printValueAsOperand v)) ∧
      dims ++ syms = op.mapOperands.map host.printValueAsOperand := by
  have hlen := op.verified h
  refine ⟨hlen, (op.mapOperands.take op.map.numDims).map host.printValueAsOperand,
    (op.mapOperands.drop op.map.numDims).map host.printValueAsOperand, ?_, ?_, ?_, ?_, ?_, ?_⟩
  · simp only [get_affine_value_map, h, dite_true]
    rw [valueMapDims_eq, valueMapSyms_eq _ _ op.operandCount]
    rfl
  · simp; omega
  · simp; omega
  · intro k hk
    have hk2 : k < op.mapOperands.length := by omega
    refine ⟨op.mapOperands[k], List.getElem?_eq_getElem hk2, ?_⟩
    simp [List.getElem?_take, hk, List.getElem?_eq_getElem hk2]
  · intro k hk
    have hk2 : op.map.numDims + k < op.mapOperands.length := by omega
    refine ⟨op.mapOperands[op.map.numDims + k], List.getElem?_eq_getElem hk2, ?_⟩
    simp [List.getElem?_eq_getElem hk2]
  · rw [← List.map_append, List.take_append_drop]

/-- Witness of C3 on the sample apply operation. -/
theorem get_affine_value_map_operands_witness :
    sampleApplyOp.name = OpName.AffineApplyOp ∧
    (sampleApplyOp.mapOperands.length =
        sampleApplyOp.map.numDims + sampleApplyOp.map.numSymbols ∧
      ∃ dims syms,
        get_affine_value_map sampleHost (some sampleApplyOp) = Except.ok (dims, syms) ∧
        dims.length = sampleApplyOp.map.numDims ∧
        syms.length = sampleApplyOp.map.numSymbols ∧
        (∀ k, k < sampleApplyOp.map.numDims →
          ∃ v, sampleApplyOp.mapOperands[k]? = some v ∧
            dims[k]? = some (sampleHost.printValueAsOperand v)) ∧
        (∀ k, k < sampleApplyOp.map.numSymbols →
          ∃ v, sampleApplyOp.mapOperands[sampleApplyOp.map.numDims + k]? = some v ∧
            syms[k]? = some (sampleHost.printValueAsOperand v)) ∧
        dims ++ syms = sampleApplyOp.mapOperands.map sampleHost.printValueAsOperand) :=
  ⟨rfl, get_affine_value_map_operands sampleHost sampleApplyOp rfl⟩

/-! ## Facts on dict assignment and on the two loops of the access relation -/

theorem getItem?_setItem {κ ν : Type} [DecidableEq κ] (d : PyDict κ ν) (k k' : κ) (v : ν) :
    (d.setItem k v).getItem? k' = if k = k' then some v else d.getItem? k' := by
  induction d with
  | nil => simp [PyDict.setItem, PyDict.getItem?]
  | cons p rest ih =>
    obtain ⟨a, b⟩ := p
    by_cases hak : a = k
    · subst hak
      by_cases hk : a = k' <;> simp [PyDict.setItem, PyDict.getItem?, hk]
    · by_cases hk : k = k'
      · subst hk
        simp [PyDict.setItem, PyDict.getItem?, hak, ih]
      · by_cases hak' : a = k'
        · subst hak'
          simp [PyDict.setItem, PyDict.getItem?, hak, hk]
        · simp [PyDict.setItem, PyDict.getItem?, hak, hak', hk, ih]

theorem setItem_of_not_mem {κ ν : Type} [DecidableEq κ] (d : PyDict κ ν) (k : κ) (v : ν)
    (h : k ∉ d.keys) : d.setItem k v = d ++ [(k, v)] := by
  induction d with
  | nil => rfl
  | cons p rest ih =>
    obtain ⟨a, b⟩ := p
    simp only [PyDict.keys, List.map_cons, List.mem_cons, not_or] at h
    have hak : ¬ a = k := fun e => h.1 e.symm
    have := ih (by simpa [PyDict.keys] using h.2)
    simp [PyDict.setItem, hak, this]

theorem foldl_setItem_enumFrom (f : Value → String) (l : List Value) (n : Nat)
    (d : PyDict Nat String) (hd : ∀ k ∈ d.keys, k < n) :
    (l.enumFrom n).foldl (fun indices pos_idx => indices.setItem pos_idx.1 (f pos_idx.2)) d
      = d ++ (l.enumFrom n).map (fun p => (p.1, f p.2)) := by
  induction l generalizing n d with
  | nil => simp
  | cons a l ih =>
    have hn : n ∉ d.keys := fun hmem => Nat.lt_irrefl _ (hd n hmem)
    simp only [List.enumFrom_cons, List.foldl_cons, List.map_cons]
    rw [setItem_of_not_mem d n (f a) hn, ih]
    · simp
    · intro k hk
      simp only [PyDict.keys, List.map_append, List.map_cons, List.map_nil, List.mem_append,
        List.mem_singleton] at hk
      rcases hk with hk | hk
      · exact Nat.lt_succ_of_lt (hd k hk)
      · omega

theorem accessIndices_eq (host : Host) (access : MemRefAccess) :
    accessIndices host access =
      access.indices.enum.map (fun p => (p.1, host.printValueAsOperand p.2)) := by
  unfold accessIndices List.enum
  rw [foldl_setItem_enumFrom host.printValueAsOperand access.indices 0 [] (by simp [PyDict.keys])]
  simp

theorem getItem?_map_enumFrom (f : Value → String) (l : List Value) (n k : Nat) :
    PyDict.getItem? ((l.enumFrom n).map (fun p => (p.1, f p.2))) k =
      if n ≤ k then (l[k - n]?).map f else none := by
  induction l generalizing n with
  | nil => simp [PyDict.getItem?]
  | cons a l ih =>
    simp only [List.enumFrom_cons, List.map_cons, PyDict.getItem?, ih]
    by_cases hnk : n = k
    · subst hnk
      simp
    · by_cases hle : n ≤ k
      · have h1 : n + 1 ≤ k := by omega
        have h2 : k - n = (k - (n + 1)) + 1 := by omega
        simp [hnk, hle, h1, h2]
      · have h1 : ¬ n + 1 ≤ k := by omega
        simp [hnk, hle, h1]

theorem keys_map_enumFrom (f : Value → String) (l : List Value) (n : Nat) :
    PyDict.keys ((l.enumFrom n).map (fun p => (p.1, f p.2))) = List.range' n l.length := by
  induction l generalizing n with
  | nil => simp [PyDict.keys]
  | cons a l ih =>
    have := ih (n + 1)
    simp only [PyDict.keys, List.map_map] at this
    simp [PyDict.keys, List.range'_succ, this]

theorem getValue_eq_iff (c : FlatAffineValueConstraints) (i : Nat) (v : Value) :
    (∃ h : c.hasValue i = true, c.getValue i h = v) ↔ c.values.getD i none = some v := by
  unfold FlatAffineValueConstraints.getValue FlatAffineValueConstraints.hasValue
  constructor
  · rintro ⟨h, hv⟩
    rw [← hv]
    simp
  · intro h
    have hs : (c.values.getD i none).isSome = true := by rw [h]; rfl
    refine ⟨hs, ?_⟩
    have := Option.some_get hs
    exact Option.some.inj (this.trans h)

theorem getItem?_boundsStep (host : Host) (rel : FlatAffineRelation)
    (d : PyDict Value (PyDict String (Option Int))) (i : Nat) (v : Value) :
    (boundsStep host rel d i).getItem? v =
      if rel.values.getD i none = some v then some (boundEntry host rel i)
      else d.getItem? v := by
  unfold boundsStep
  by_cases h : rel.hasValue i = true
  · simp only [h, dite_true, getItem?_setItem]
    have hv : rel.values.getD i none = some (rel.getValue i h) :=
      (getValue_eq_iff _ i _).mp ⟨h, rfl⟩
    rw [hv]
    simp
  · have hv : rel.values.getD i none ≠ some v := fun e =>
      h ((getValue_eq_iff _ i v).mpr e).1
    rw [dif_neg h, if_neg hv]

theorem getItem?_foldl_boundsStep (host : Host) (rel : FlatAffineRelation) (n : Nat)
    (v : Value) (b : PyDict String (Option Int)) :
    ((List.range n).foldl (boundsStep host rel) []).getItem? v = some b ↔
      ∃ i, i < n ∧ rel.values.getD i none = some v ∧ b = boundEntry host rel i ∧
        ∀ j, i < j → j < n → rel.values.getD j none ≠ some v := by
  induction n with
  | zero => simp [PyDict.getItem?]
  | succ n ih =>
    rw [List.range_succ, List.foldl_append, List.foldl_cons, List.foldl_nil,
      getItem?_boundsStep]
    by_cases hv : rel.values.getD n none = some v
    · simp only [hv, if_true, Option.some.injEq]
      constructor
      · intro hb
        exact ⟨n, Nat.lt_succ_self n, hv, hb.symm, fun j h1 h2 => by omega⟩
      · rintro ⟨i, hi, hiv, hb, hlast⟩
        by_cases hin : i = n
        · subst hin
          exact hb.symm
        · exact absurd hv (hlast n (by omega) (Nat.lt_succ_self n))
    · simp only [hv, if_false, ih]
      constructor
      · rintro ⟨i, hi, hiv, hb, hlast⟩
        refine ⟨i, by omega, hiv, hb, fun j h1 h2 => ?_⟩
        by_cases hjn : j = n
        · subst hjn
          exact hv
        · exact hlast j h1 (by omega)
      · rintro ⟨i, hi, hiv, hb, hlast⟩
        have hin : i ≠ n := fun e => hv (e ▸ hiv)
        exact ⟨i, by omega, hiv, hb, fun j h1 h2 => hlast j h1 (by omega)⟩

theorem foldl_boundsStep_congr (host host2 : Host) (rel : FlatAffineRelation) (l : List Nat)
    (d : PyDict Value (PyDict String (Option Int)))
    (h : ∀ i ∈ l, ∀ kind, host2.getConstantBound rel.toFlatAffineValueConstraints kind i =
      host.getConstantBound rel.toFlatAffineValueConstraints kind i) :
    l.foldl (boundsStep host2 rel) d = l.foldl (boundsStep host rel) d := by
  induction l generalizing d with
  | nil => rfl
  | cons a l ih =>
    have ha : boundsStep host2 rel d a = boundsStep host rel d a := by
      unfold boundsStep boundEntry
      simp [h a (List.mem_cons_self a l)]
    simp only [List.foldl_cons, ha]
    exact ih _ (fun i hi => h i (List.mem_cons_of_mem a hi))

theorem keys_setItem {κ ν : Type} [DecidableEq κ] (d : PyDict κ ν) (k : κ) (v : ν) :
    (d.setItem k v).keys = if k ∈ d.keys then d.keys else d.keys ++ [k] := by
  induction d with
  | nil => simp [PyDict.setItem, PyDict.keys]
  | cons p rest ih =>
    obtain ⟨a, b⟩ := p
    by_cases hak : a = k
    · subst hak
      simp [PyDict.setItem, PyDict.keys]
    · have hka : ¬ k = a := fun e => hak e.symm
      simp only [PyDict.keys] at ih
      by_cases hmem : k ∈ List.map Prod.fst rest
      · simp [PyDict.setItem, PyDict.keys, hak, hka, hmem, ih]
      · simp [PyDict.setItem, PyDict.keys, hak, hka, hmem, ih]

theorem nodup_keys_setItem {κ ν : Type} [DecidableEq κ] (d : PyDict κ ν) (k : κ) (v : ν)
    (h : d.keys.Nodup) : (d.setItem k v).keys.Nodup := by
  rw [keys_setItem]
  by_cases hmem : k ∈ d.keys
  · simpa [hmem] using h
  · simp only [hmem, if_false]
    exact List.Nodup.append h (List.nodup_singleton k) (by simpa using hmem)

theorem getItem?_of_mem {κ ν : Type} [DecidableEq κ] (d : PyDict κ ν) (k : κ) (v : ν)
    (h : d.keys.Nodup) (hmem : (k, v) ∈ d) : d.getItem? k = some v := by
  induction d with
  | nil => simp at hmem
  | cons p rest ih =>
    obtain ⟨a, b⟩ := p
    simp only [PyDict.keys, List.map_cons, List.nodup_cons] at h
    rcases List.mem_cons.mp hmem with heq | hrest
    · cases heq
      simp [PyDict.getItem?]
    · have hak : ¬ a = k := by
        intro e
        subst e
        exact h.1 (List.mem_map.mpr ⟨(a, v), hrest, rfl⟩)
      simp only [PyDict.getItem?, hak, if_false]
      exact ih (by simpa [PyDict.keys] using h.2) hrest

theorem nodup_keys_foldl_boundsStep (host : Host) (rel : FlatAffineRelation) (l : List Nat)
    (d : PyDict Value (PyDict String (Option Int))) (h : d.keys.Nodup) :
    (l.foldl (boundsStep host rel) d).keys.Nodup := by
  induction l generalizing d with
  | nil => exact h
  | cons a l ih =>
    apply ih
    unfold boundsStep
    split
    · exact nodup_keys_setItem _ _ _ h
    · exact h

theorem nodup_keys_accessBounds (host : Host) (rel : FlatAffineRelation) :
    (accessBounds host rel).keys.Nodup :=
  nodup_keys_foldl_boundsStep host rel _ [] (by simp [PyDict.keys])

theorem exists_getItem?_foldl_boundsStep (host : Host) (rel : FlatAffineRelation) (n : Nat)
    (v : Value) :
    (∃ b, ((List.range n).foldl (boundsStep host rel) []).getItem? v = some b) ↔
      ∃ i, i < n ∧ rel.values.getD i none = some v := by
  induction n with
  | zero => simp [PyDict.getItem?]
  | succ n ih =>
    rw [List.range_succ, List.foldl_append, List.foldl_cons, List.foldl_nil,
      getItem?_boundsStep]
    by_cases hv : rel.values.getD n none = some v
    · simp only [hv, if_true]
      exact ⟨fun _ => ⟨n, Nat.lt_succ_self n, hv⟩, fun _ => ⟨_, rfl⟩⟩
    · simp only [hv, if_false, ih]
      constructor
      · rintro ⟨i, hi, hiv⟩
        exact ⟨i, by omega, hiv⟩
      · rintro ⟨i, hi, hiv⟩
        have hin : i ≠ n := fun e => hv (e ▸ hiv)
        exact ⟨i, by omega, hiv⟩

/-! ## The bounds and the indices of the access relation -/

/-- C4: for a load or store, the bounds mapping returned by `get_access_relation` has
an entry for a value `v` if and only if some position `i < numDims + numSymbols` of
the iteration domain has `hasValue(i)` and `getValue(i) = v` (untagged positions
contribute nothing), and the result does not change when the constant bounds of the
positions at or beyond `numDims + numSymbols` change: those are not queried. -/
theorem get_access_relation_bounds_keys (host : Host) (op : Operation)
    (h : op.name = OpName.AffineLoadOp ∨ op.name = OpName.AffineStoreOp) :
    ∃ bounds indices, get_access_relation host (some op) = Except.ok (bounds, indices) ∧
      (∀ v, (∃ bound, bounds.getItem? v = some bound) ↔
        ∃ i, i < (getOpIndexSet host op default).2.getNumDimAndSymbolVars ∧
          ∃ hv : (getOpIndexSet host op default).2.hasValue i = true,
            (getOpIndexSet host op default).2.getValue i hv = v) ∧
      (∀ getConstantBound2 : FlatAffineValueConstraints → BoundType → Nat → Option Int,
        (∀ c kind i, i < c.getNumDimAndSymbolVars →
          getConstantBound2 c kind i = host.getConstantBound c kind i) →
        get_access_relation
            { printValueAsOperand := host.printValueAsOperand
              getIndexSet := host.getIndexSet
              getConstantBound := getConstantBound2 } (some op) =
          Except.ok (bounds, indices)) := by
  have hn : op.name = OpName.AffineStoreOp ∨ op.name = OpName.AffineLoadOp := h.symm
  refine ⟨accessBounds host (accessDomainRel host op),
    accessIndices host (MemRefAccess.ofOperation op), ?_, ?_, ?_⟩
  · simp [get_access_relation, hn]
  · intro v
    unfold accessBounds
    constructor
    · rintro ⟨bound, hb⟩
      obtain ⟨i, hi, hiv, _, _⟩ := (getItem?_foldl_boundsStep host _ _ v bound).mp hb
      exact ⟨i, hi, (getValue_eq_iff _ i v).mpr hiv⟩
    · rintro ⟨i, hi, hiv⟩
      exact (exists_getItem?_foldl_boundsStep host _ _ v).mpr
        ⟨i, hi, (getValue_eq_iff _ i v).mp hiv⟩
  · intro gcb hgcb
    simp only [get_access_relation, hn, if_true]
    have hrel : accessDomainRel
        { printValueAsOperand := host.printValueAsOperand
          getIndexSet := host.getIndexSet
          getConstantBound := gcb } op = accessDomainRel host op := rfl
    rw [hrel]
    congr 2
    unfold accessBounds
    apply foldl_boundsStep_congr
    intro i hi kind
    exact hgcb _ kind i (List.mem_range.mp hi)

/-- Witness of C4 on the sample load. -/
theorem get_access_relation_bounds_keys_witness :
    (sampleLoadOp.name = OpName.AffineLoadOp ∨ sampleLoadOp.name = OpName.AffineStoreOp) ∧
    ∃ bounds indices,
      get_access_relation sampleHost (some sampleLoadOp) = Except.ok (bounds, indices) ∧
      (∀ v, (∃ bound, bounds.getItem? v = some bound) ↔
        ∃ i, i < (getOpIndexSet sampleHost sampleLoadOp default).2.getNumDimAndSymbolVars ∧
          ∃ hv : (getOpIndexSet sampleHost sampleLoadOp default).2.hasValue i = true,
            (getOpIndexSet sampleHost sampleLoadOp default).2.getValue i hv = v) ∧
      (∀ getConstantBound2 : FlatAffineValueConstraints → BoundType → Nat → Option Int,
        (∀ c kind i, i < c.getNumDimAndSymbolVars →
          getConstantBound2 c kind i = sampleHost.getConstantBound c kind i) →
        get_access_relation
            { printValueAsOperand := sampleHost.printValueAsOperand
              getIndexSet := sampleHost.getIndexSet
              getConstantBound := getConstantBound2 } (some sampleLoadOp) =
          Except.ok (bounds, indices)) :=
  ⟨Or.inl rfl, get_access_relation_bounds_keys sampleHost sampleLoadOp (Or.inl rfl)⟩

/-- C5: for a load or store with index operand list `idx` of length `r`, the indices
mapping returned by `get_access_relation` has exactly the keys `0, 1, ..., r-1` and
maps each `k < r` to the printed identity of `idx[k]`; the mapping is a function of
the index operand list alone: it is the same for every load or store with the same
index operands, whatever iteration domain and constant bounds the host computes. -/
theorem get_access_relation_indices (host : Host) (op : Operation)
    (h : op.name = OpName.AffineLoadOp ∨ op.name = OpName.AffineStoreOp) :
    ∃ bounds indices, get_access_relation host (some op) = Except.ok (bounds, indices) ∧
      indices.keys = List.range op.mapOperands.length ∧
      (∀ k, k < op.mapOperands.length →
        ∃ v, op.mapOperands[k]? = some v ∧
          indices.getItem? k = some (host.printValueAsOperand v)) ∧
      (∀ k, op.mapOperands.length ≤ k → indices.getItem? k = none) ∧
      (∀ (host2 : Host) (op2 : Operation),
        op2.name = OpName.AffineLoadOp ∨ op2.name = OpName.AffineStoreOp →
        host2.printValueAsOperand = host.printValueAsOperand →
        op2.mapOperands = op.mapOperands →
        ∃ bounds2, get_access_relation host2 (some op2) = Except.ok (bounds2, indices)) := by
  have hn : op.name = OpName.AffineStoreOp ∨ op.name = OpName.AffineLoadOp := h.symm
  refine ⟨accessBounds host (accessDomainRel host op),
    accessIndices host (MemRefAccess.ofOperation op), ?_, ?_, ?_, ?_, ?_⟩
  · simp [get_access_relation, hn]
  · rw [accessIndices_eq, List.enum, keys_map_enumFrom, List.range_eq_range']
    rfl
  · intro k hk
    refine ⟨op.mapOperands[k], List.getElem?_eq_getElem hk, ?_⟩
    rw [accessIndices_eq, List.enum, getItem?_map_enumFrom]
    simp [MemRefAccess.ofOperation, List.getElem?_eq_getElem hk]
  · intro k hk
    rw [accessIndices_eq, List.enum, getItem?_map_enumFrom]
    simp [MemRefAccess.ofOperation, List.getElem?_eq_none hk]
  · intro host2 op2 h2 hprint hops
    have hn2 : op2.name = OpName.AffineStoreOp ∨ op2.name = OpName.AffineLoadOp := h2.symm
    refine ⟨accessBounds host2 (accessDomainRel host2 op2), ?_⟩
    simp [get_access_relation, hn2, accessIndices, MemRefAccess.ofOperation, hprint, hops]

/-- Witness of C5 on the sample load. -/
theorem get_access_relation_indices_witness :
    (sampleLoadOp.name = OpName.AffineLoadOp ∨ sampleLoadOp.name = OpName.AffineStoreOp) ∧
    ∃ bounds indices,
      get_access_relation sampleHost (some sampleLoadOp) = Except.ok (bounds, indices) ∧
      indices.keys = List.range sampleLoadOp.mapOperands.length ∧
      (∀ k, k < sampleLoadOp.mapOperands.length →
        ∃ v, sampleLoadOp.mapOperands[k]? = some v ∧
          indices.getItem? k = some (sampleHost.printValueAsOperand v)) ∧
      (∀ k, sampleLoadOp.mapOperands.length ≤ k → indices.getItem? k = none) ∧
      (∀ (host2 : Host) (op2 : Operation),
        op2.name = OpName.AffineLoadOp ∨ op2.name = OpName.AffineStoreOp →
        host2.printValueAsOperand = sampleHost.printValueAsOperand →
        op2.mapOperands = sampleLoadOp.mapOperands →
        ∃ bounds2, get_access_relation host2 (some op2) = Except.ok (bounds2, indices)) :=
  ⟨Or.inl rfl, get_access_relation_indices sampleHost sampleLoadOp (Or.inl rfl)⟩

/-- C9: every entry of the bounds mapping returned by `get_access_relation` is a
mapping with exactly the three keys "LB", "UB" and "EQ"; each key holds the result of
`getConstantBound` of that kind at the position of the variable tagged with the key
of the entry, an undeterminable bound being the explicit value `none` under its key. -/
theorem get_access_relation_bound_entries (host : Host) (op : Operation)
    (h : op.name = OpName.AffineLoadOp ∨ op.name = OpName.AffineStoreOp) :
    ∃ bounds indices, get_access_relation host (some op) = Except.ok (bounds, indices) ∧
      ∀ v bound, (v, bound) ∈ bounds →
        bound.keys = ["LB", "UB", "EQ"] ∧
        ∃ i, i < (getOpIndexSet host op default).2.getNumDimAndSymbolVars ∧
          (∃ hv : (getOpIndexSet host op default).2.hasValue i = true,
            (getOpIndexSet host op default).2.getValue i hv = v) ∧
          bound.getItem? "LB" =
            some (host.getConstantBound (getOpIndexSet host op default).2 BoundType.LB i) ∧
          bound.getItem? "UB" =
            some (host.getConstantBound (getOpIndexSet host op default).2 BoundType.UB i) ∧
          bound.getItem? "EQ" =
            some (host.getConstantBound (getOpIndexSet host op default).2 BoundType.EQ i) := by
  have hn : op.name = OpName.AffineStoreOp ∨ op.name = OpName.AffineLoadOp := h.symm
  refine ⟨accessBounds host (accessDomainRel host op),
    accessIndices host (MemRefAccess.ofOperation op), ?_, ?_⟩
  · simp [get_access_relation, hn]
  · intro v bound hmem
    have hget := getItem?_of_mem _ v bound (nodup_keys_accessBounds host _) hmem
    obtain ⟨i, hi, hiv, hb, _⟩ := (getItem?_foldl_boundsStep host _ _ v bound).mp hget
    subst hb
    refine ⟨by simp [boundEntry, PyDict.setItem, PyDict.keys], i, hi,
      (getValue_eq_iff _ i v).mpr hiv, ?_, ?_, ?_⟩
    · simp [boundEntry, PyDict.setItem, PyDict.getItem?, accessDomainRel]
    · simp [boundEntry, PyDict.setItem, PyDict.getItem?, accessDomainRel]
    · simp [boundEntry, PyDict.setItem, PyDict.getItem?, accessDomainRel]

/-- Witness of C9 on the sample load. -/
theorem get_access_relation_bound_entries_witness :
    (sampleLoadOp.name = OpName.AffineLoadOp ∨ sampleLoadOp.name = OpName.AffineStoreOp) ∧
    ∃ bounds indices,
      get_access_relation sampleHost (some sampleLoadOp) = Except.ok (bounds, indices) ∧
      ∀ v bound, (v, bound) ∈ bounds →
        bound.keys = ["LB", "UB", "EQ"] ∧
        ∃ i, i < (getOpIndexSet sampleHost sampleLoadOp default).2.getNumDimAndSymbolVars ∧
          (∃ hv : (getOpIndexSet sampleHost sampleLoadOp default).2.hasValue i = true,
            (getOpIndexSet sampleHost sampleLoadOp default).2.getValue i hv = v) ∧
          bound.getItem? "LB" =
            some (sampleHost.getConstantBound
              (getOpIndexSet sampleHost sampleLoadOp default).2 BoundType.LB i) ∧
          bound.getItem? "UB" =
            some (sampleHost.getConstantBound
              (getOpIndexSet sampleHost sampleLoadOp default).2 BoundType.UB i) ∧
          bound.getItem? "EQ" =
            some (sampleHost.getConstantBound
              (getOpIndexSet sampleHost sampleLoadOp default).2 BoundType.EQ i) :=
  ⟨Or.inl rfl, get_access_relation_bound_entries sampleHost sampleLoadOp (Or.inl rfl)⟩

/-! ## The walk over the results of a map -/

theorem postOrder_eq (e : AffineExpr) :
    e.postOrder =
      match e.operands with
      | none => [e]
      | some (l, r) => l.postOrder ++ r.postOrder ++ [e] := by
  cases e <;>
    simp [AffineExpr.postOrder, AffineExpr.postOrderPaths, AffineExpr.operands,
      AffineExpr.nodeAt, List.filterMap_append, List.filterMap_map, Function.comp_def]

theorem walk_eq_foldl {σ : Type} (callback : σ → AffineExpr → σ) (e : AffineExpr) (s : σ) :
    e.walk callback s = e.postOrder.foldl callback s := by
  induction e generalizing s with
  | Dim p => rw [postOrder_eq]; rfl
  | Symbol p => rw [postOrder_eq]; rfl
  | Constant v => rw [postOrder_eq]; rfl
  | Add l r ihl ihr =>
    rw [postOrder_eq]; simp [AffineExpr.operands, AffineExpr.walk, ihl, ihr]
  | Mul l r ihl ihr =>
    rw [postOrder_eq]; simp [AffineExpr.operands, AffineExpr.walk, ihl, ihr]
  | Mod l r ihl ihr =>
    rw [postOrder_eq]; simp [AffineExpr.operands, AffineExpr.walk, ihl, ihr]
  | FloorDiv l r ihl ihr =>
    rw [postOrder_eq]; simp [AffineExpr.operands, AffineExpr.walk, ihl, ihr]
  | CeilDiv l r ihl ihr =>
    rw [postOrder_eq]; simp [AffineExpr.operands, AffineExpr.walk, ihl, ihr]

theorem length_postOrder (e : AffineExpr) : e.postOrder.length = e.numNodes := by
  induction e with
  | Dim p => rw [postOrder_eq]; rfl
  | Symbol p => rw [postOrder_eq]; rfl
  | Constant v => rw [postOrder_eq]; rfl
  | Add l r ihl ihr => rw [postOrder_eq]; simp [AffineExpr.operands, AffineExpr.numNodes, ihl, ihr, Nat.add_assoc]
  | Mul l r ihl ihr => rw [postOrder_eq]; simp [AffineExpr.operands, AffineExpr.numNodes, ihl, ihr, Nat.add_assoc]
  | Mod l r ihl ihr => rw [postOrder_eq]; simp [AffineExpr.operands, AffineExpr.numNodes, ihl, ihr, Nat.add_assoc]
  | FloorDiv l r ihl ihr =>
    rw [postOrder_eq]; simp [AffineExpr.operands, AffineExpr.numNodes, ihl, ihr, Nat.add_assoc]
  | CeilDiv l r ihl ihr =>
    rw [postOrder_eq]; simp [AffineExpr.operands, AffineExpr.numNodes, ihl, ihr, Nat.add_assoc]

/-- The calls expected of `walkExprs` for the results `l`, the first of which has
index `n`: result after result, each with the nodes of its tree in post-order. -/
theorem foldl_walk_enumFrom {σ : Type} (callback : σ → Nat → AffineExpr → σ)
    (l : List AffineExpr) (n : Nat) (s : σ) :
    (l.enumFrom n).foldl
        (fun s idx_expr => idx_expr.2.walk (fun s expr => callback s idx_expr.1 expr) s) s =
      ((l.enumFrom n).flatMap (fun p => p.2.postOrder.map (fun e => (p.1, e)))).foldl
        (fun s c => callback s c.1 c.2) s := by
  induction l generalizing n s with
  | nil => rfl
  | cons a l ih =>
    simp only [List.enumFrom_cons, List.foldl_cons, List.flatMap_cons, List.foldl_append]
    rw [ih, walk_eq_foldl, List.foldl_map]

theorem walkExprs_eq_foldl {σ : Type} (self : AffineMap)
    (callback : σ → Nat → AffineExpr → σ) (s : σ) :
    walkExprs self callback s =
      (self.results.enum.flatMap (fun p => p.2.postOrder.map (fun e => (p.1, e)))).foldl
        (fun s c => callback s c.1 c.2) s :=
  foldl_walk_enumFrom callback self.results 0 s

theorem walkExprsCalls_eq (self : AffineMap) :
    walkExprsCalls self =
      self.results.enum.flatMap (fun p => p.2.postOrder.map (fun e => (p.1, e))) := by
  unfold walkExprsCalls
  rw [walkExprs_eq_foldl]
  have := foldl_append_singleton (fun c : Nat × AffineExpr => c)
    (self.results.enum.flatMap (fun p => p.2.postOrder.map (fun e => (p.1, e)))) []
  simpa [recordCall] using this

theorem length_calls_enumFrom (l : List AffineExpr) (n : Nat) :
    ((l.enumFrom n).flatMap (fun p => p.2.postOrder.map (fun e => (p.1, e)))).length =
      (l.map AffineExpr.numNodes).sum := by
  induction l generalizing n with
  | nil => rfl
  | cons a l ih =>
    simp [List.enumFrom_cons, List.flatMap_cons, ih, length_postOrder]

theorem index_ge_of_mem_calls (l : List AffineExpr) (n : Nat) (c : Nat × AffineExpr)
    (h : c ∈ (l.enumFrom n).flatMap (fun p => p.2.postOrder.map (fun e => (p.1, e)))) :
    n ≤ c.1 := by
  induction l generalizing n with
  | nil => simp at h
  | cons a l ih =>
    simp only [List.enumFrom_cons, List.flatMap_cons, List.mem_append, List.mem_map] at h
    rcases h with ⟨e, _, he⟩ | h
    · rw [← he]
    · exact Nat.le_of_succ_le (ih (n + 1) h)

theorem pairwise_calls_enumFrom (l : List AffineExpr) (n : Nat) :
    List.Pairwise (fun a b : Nat × AffineExpr => a.1 ≤ b.1)
      ((l.enumFrom n).flatMap (fun p => p.2.postOrder.map (fun e => (p.1, e)))) := by
  induction l generalizing n with
  | nil => simp
  | cons a l ih =>
    simp only [List.enumFrom_cons, List.flatMap_cons]
    rw [List.pairwise_append]
    refine ⟨?_, ih (n + 1), ?_⟩
    · rw [List.pairwise_map]
      exact List.pairwise_of_forall (fun _ _ => Nat.le_refl n)
    · intro x hx y hy
      obtain ⟨e, _, he⟩ := List.mem_map.mp hx
      have := index_ge_of_mem_calls l (n + 1) y hy
      rw [← he]
      exact Nat.le_of_succ_le this

theorem mem_postOrderPaths_iff (e : AffineExpr) (path : List Bool) :
    path ∈ e.postOrderPaths ↔ (e.nodeAt path).isSome = true := by
  induction e generalizing path with
  | Dim p => cases path <;> simp [AffineExpr.postOrderPaths, AffineExpr.nodeAt, AffineExpr.operands]
  | Symbol p =>
    cases path <;> simp [AffineExpr.postOrderPaths, AffineExpr.nodeAt, AffineExpr.operands]
  | Constant v =>
    cases path <;> simp [AffineExpr.postOrderPaths, AffineExpr.nodeAt, AffineExpr.operands]
  | Add l r ihl ihr =>
    cases path with
    | nil => simp [AffineExpr.postOrderPaths, AffineExpr.nodeAt]
    | cons b path =>
      cases b <;>
        simp [AffineExpr.postOrderPaths, AffineExpr.nodeAt, AffineExpr.operands, ihl, ihr]
  | Mul l r ihl ihr =>
    cases path with
    | nil => simp [AffineExpr.postOrderPaths, AffineExpr.nodeAt]
    | cons b path =>
      cases b <;>
        simp [AffineExpr.postOrderPaths, AffineExpr.nodeAt, AffineExpr.operands, ihl, ihr]
  | Mod l r ihl ihr =>
    cases path with
    | nil => simp [AffineExpr.postOrderPaths, AffineExpr.nodeAt]
    | cons b path =>
      cases b <;>
        simp [AffineExpr.postOrderPaths, AffineExpr.nodeAt, AffineExpr.operands, ihl, ihr]
  | FloorDiv l r ihl ihr =>
    cases path with
    | nil => simp [AffineExpr.postOrderPaths, AffineExpr.nodeAt]
    | cons b path =>
      cases b <;>
        simp [AffineExpr.postOrderPaths, AffineExpr.nodeAt, AffineExpr.operands, ihl, ihr]
  | CeilDiv l r ihl ihr =>
    cases path with
    | nil => simp [AffineExpr.postOrderPaths, AffineExpr.nodeAt]
    | cons b path =>
      cases b <;>
        simp [AffineExpr.postOrderPaths, AffineExpr.nodeAt, AffineExpr.operands, ihl, ihr]

theorem nodup_binary_paths (ps qs : List (List Bool)) (hp : ps.Nodup) (hq : qs.Nodup) :
    (ps.map (List.cons false) ++ qs.map (List.cons true) ++ [[]]).Nodup := by
  have hinj : ∀ b : Bool, Function.Injective (List.cons b) := fun b x y hxy =>
    (List.cons.inj hxy).2
  rw [List.nodup_append]
  refine ⟨?_, List.nodup_singleton _, ?_⟩
  · rw [List.nodup_append]
    refine ⟨hp.map (hinj false), hq.map (hinj true), ?_⟩
    intro x hx hx'
    obtain ⟨a, _, ha⟩ := List.mem_map.mp hx
    obtain ⟨b, _, hb⟩ := List.mem_map.mp hx'
    rw [← ha] at hb
    simp at hb
  · intro x hx hx'
    rw [List.mem_singleton] at hx'
    subst hx'
    simp at hx

theorem nodup_postOrderPaths (e : AffineExpr) : e.postOrderPaths.Nodup := by
  induction e with
  | Dim p => simp [AffineExpr.postOrderPaths]
  | Symbol p => simp [AffineExpr.postOrderPaths]
  | Constant v => simp [AffineExpr.postOrderPaths]
  | Add l r ihl ihr => exact nodup_binary_paths _ _ ihl ihr
  | Mul l r ihl ihr => exact nodup_binary_paths _ _ ihl ihr
  | Mod l r ihl ihr => exact nodup_binary_paths _ _ ihl ihr
  | FloorDiv l r ihl ihr => exact nodup_binary_paths _ _ ihl ihr
  | CeilDiv l r ihl ihr => exact nodup_binary_paths _ _ ihl ihr

/-- C7: for a map with results `e_0, ..., e_{n-1}`, `walkExprs` invokes the callback
once for every node of every result tree, each call for a node of `e_i` carrying the
index `i`; the calls for `e_i` precede those for `e_j` when `i < j`; within a result
the nodes come in post-order (operands before the node); the number of calls is the
sum of the node counts of the results, zero for a map without results. -/
theorem walkExprs_calls (self : AffineMap) :
    walkExprsCalls self =
        self.results.enum.flatMap (fun p => p.2.postOrder.map (fun e => (p.1, e))) ∧
    (∀ (σ : Type) (callback : σ → Nat → AffineExpr → σ) (s : σ),
      walkExprs self callback s =
        (walkExprsCalls self).foldl (fun s c => callback s c.1 c.2) s) ∧
    List.Pairwise (fun a b : Nat × AffineExpr => a.1 ≤ b.1) (walkExprsCalls self) ∧
    (walkExprsCalls self).length = (self.results.map AffineExpr.numNodes).sum ∧
    (self.results = [] → walkExprsCalls self = []) ∧
    (∀ e : AffineExpr,
      e.postOrder = e.postOrderPaths.filterMap e.nodeAt ∧
      e.postOrderPaths.Nodup ∧
      (∀ path, path ∈ e.postOrderPaths ↔ (e.nodeAt path).isSome = true) ∧
      e.postOrder.length = e.numNodes ∧
      e.postOrder =
        match e.operands with
        | none => [e]
        | some (l, r) => l.postOrder ++ r.postOrder ++ [e]) := by
  refine ⟨walkExprsCalls_eq self, ?_, ?_, ?_, ?_, ?_⟩
  · intro σ callback s
    rw [walkExprsCalls_eq]
    exact walkExprs_eq_foldl self callback s
  · rw [walkExprsCalls_eq]
    exact pairwise_calls_enumFrom self.results 0
  · rw [walkExprsCalls_eq]
    exact length_calls_enumFrom self.results 0
  · intro h
    rw [walkExprsCalls_eq, h]
    rfl
  · intro e
    exact ⟨rfl, nodup_postOrderPaths e, mem_postOrderPaths_iff e, length_postOrder e,
      postOrder_eq e⟩

/-- Witness of C7: the calls made for the map `(d0)[s0] -> (d0 + s0)` and for a map
without results. -/
theorem walkExprs_calls_witness :
    walkExprsCalls sampleMap =
      [(0, AffineExpr.Dim 0), (0, AffineExpr.Symbol 0),
       (0, AffineExpr.Add (AffineExpr.Dim 0) (AffineExpr.Symbol 0))] ∧
    walkExprsCalls ⟨0, 0, []⟩ = [] :=
  ⟨(walkExprs_calls sampleMap).1.trans (by decide),
   (walkExprs_calls ⟨0, 0, []⟩).2.2.2.2.1 rfl⟩

/-! ## The cast of an expression to its Python wrapper -/

/-- C10: the wrapper class of an expression is chosen by the first matching test in
the order Dim, Symbol, Constant, Add, Mul, Mod, FloorDiv, CeilDiv, Binary; for an
expression of one of the eight kinds the result is the wrapper of exactly that kind
(the Python class AffineDimExpr for a Dim, AffineSymbolExpr for a Symbol,
AffineConstantExpr for a Constant, AffineAddExpr for an Add, AffineMulExpr for a Mul,
AffineModExpr for a Mod, AffineFloorDivExpr for a FloorDiv, AffineCeilDivExpr for a
CeilDiv, each wrapping the expression itself), so the generic Binary wrapper is never
produced and the cast error is not raised, whatever the generic binary test answers. -/
theorem cast_wrapper_of_kind (isABinary : AffineExpr → Bool) (v : AffineExpr) :
    cast isABinary v =
      Except.ok
        { className :=
            match v with
            | AffineExpr.Dim _ => "AffineDimExpr"
            | AffineExpr.Symbol _ => "AffineSymbolExpr"
            | AffineExpr.Constant _ => "AffineConstantExpr"
            | AffineExpr.Add _ _ => "AffineAddExpr"
            | AffineExpr.Mul _ _ => "AffineMulExpr"
            | AffineExpr.Mod _ _ => "AffineModExpr"
            | AffineExpr.FloorDiv _ _ => "AffineFloorDivExpr"
            | AffineExpr.CeilDiv _ _ => "AffineCeilDivExpr"
          expr := v } ∧
    cast isABinary v = Except.ok (subExprWrapper v.exprType v) ∧
    FOR_ALL_EXPR_TYPES.find? (fun t => mlirAffineExprIsA isABinary t v) = some v.exprType ∧
    (∀ t, mlirAffineExprIsA isABinary t v = true → t = v.exprType ∨ t = ExprType.Binary) ∧
    mlirAffineExprIsA isABinary v.exprType v = true ∧
    v.exprType ≠ ExprType.Binary ∧
    (subExprWrapper v.exprType v).className ∈
      ["AffineDimExpr", "AffineSymbolExpr", "AffineConstantExpr", "AffineAddExpr",
       "AffineMulExpr", "AffineModExpr", "AffineFloorDivExpr", "AffineCeilDivExpr"] ∧
    (∀ result, cast isABinary v = Except.ok result →
      result.className ≠ "AffineBinaryExpr") ∧
    (∀ msg, cast isABinary v ≠ Except.error (PyError.cast_error msg)) := by
  have hfind : FOR_ALL_EXPR_TYPES.find? (fun t => mlirAffineExprIsA isABinary t v)
      = some v.exprType := by
    cases v <;> simp [FOR_ALL_EXPR_TYPES, List.find?, mlirAffineExprIsA, AffineExpr.exprType]
  have hcast : cast isABinary v = Except.ok (subExprWrapper v.exprType v) := by
    simp [cast, hfind]
  have hname : (subExprWrapper v.exprType v).className ∈
      ["AffineDimExpr", "AffineSymbolExpr", "AffineConstantExpr", "AffineAddExpr",
       "AffineMulExpr", "AffineModExpr", "AffineFloorDivExpr", "AffineCeilDivExpr"] := by
    cases v <;> simp [subExprWrapper, AffineExpr.exprType, ExprType.toString]
  refine ⟨?_, hcast, hfind, ?_, ?_, ?_, hname, ?_, ?_⟩
  · rw [hcast]
    cases v <;> rfl
  · intro t ht
    cases v <;> cases t <;> simp_all [mlirAffineExprIsA, AffineExpr.exprType]
  · cases v <;> rfl
  · cases v <;> simp [AffineExpr.exprType]
  · intro result hres
    rw [hcast] at hres
    cases hres
    intro hbin
    rw [hbin] at hname
    revert hname
    decide
  · intro msg
    rw [hcast]
    simp

/-- Witness of C10: one expression of each of the eight kinds is wrapped in the class
of its own kind, the five binary kinds also when the generic binary test holds of
them, and the wrapper of an addition is not the generic binary one. -/
theorem cast_wrapper_of_kind_witness :
    cast (fun _ => true) (AffineExpr.Dim 0) =
      Except.ok ⟨"AffineDimExpr", AffineExpr.Dim 0⟩ ∧
    cast (fun _ => true) (AffineExpr.Symbol 0) =
      Except.ok ⟨"AffineSymbolExpr", AffineExpr.Symbol 0⟩ ∧
    cast (fun _ => true) (AffineExpr.Constant 1) =
      Except.ok ⟨"AffineConstantExpr", AffineExpr.Constant 1⟩ ∧
    cast (fun _ => true) (AffineExpr.Add (AffineExpr.Dim 0) (AffineExpr.Constant 1)) =
      Except.ok ⟨"AffineAddExpr", AffineExpr.Add (AffineExpr.Dim 0) (AffineExpr.Constant 1)⟩ ∧
    cast (fun _ => true) (AffineExpr.Mul (AffineExpr.Dim 0) (AffineExpr.Constant 2)) =
      Except.ok ⟨"AffineMulExpr", AffineExpr.Mul (AffineExpr.Dim 0) (AffineExpr.Constant 2)⟩ ∧
    cast (fun _ => true) (AffineExpr.Mod (AffineExpr.Dim 0) (AffineExpr.Constant 2)) =
      Except.ok ⟨"AffineModExpr", AffineExpr.Mod (AffineExpr.Dim 0) (AffineExpr.Constant 2)⟩ ∧
    cast (fun _ => true) (AffineExpr.FloorDiv (AffineExpr.Dim 0) (AffineExpr.Constant 2)) =
      Except.ok
        ⟨"AffineFloorDivExpr", AffineExpr.FloorDiv (AffineExpr.Dim 0) (AffineExpr.Constant 2)⟩ ∧
    cast (fun _ => true) (AffineExpr.CeilDiv (AffineExpr.Dim 0) (AffineExpr.Constant 2)) =
      Except.ok
        ⟨"AffineCeilDivExpr", AffineExpr.CeilDiv (AffineExpr.Dim 0) (AffineExpr.Constant 2)⟩ ∧
    (⟨"AffineAddExpr", AffineExpr.Add (AffineExpr.Dim 0) (AffineExpr.Constant 1)⟩ :
      PyAffineExpr).className ≠ "AffineBinaryExpr" :=
  ⟨(cast_wrapper_of_kind (fun _ => true) (AffineExpr.Dim 0)).1,
   (cast_wrapper_of_kind (fun _ => true) (AffineExpr.Symbol 0)).1,
   (cast_wrapper_of_kind (fun _ => true) (AffineExpr.Constant 1)).1,
   (cast_wrapper_of_kind (fun _ => true)
      (AffineExpr.Add (AffineExpr.Dim 0) (AffineExpr.Constant 1))).1,
   (cast_wrapper_of_kind (fun _ => true)
      (AffineExpr.Mul (AffineExpr.Dim 0) (AffineExpr.Constant 2))).1,
   (cast_wrapper_of_kind (fun _ => true)
      (AffineExpr.Mod (AffineExpr.Dim 0) (AffineExpr.Constant 2))).1,
   (cast_wrapper_of_kind (fun _ => true)
      (AffineExpr.FloorDiv (AffineExpr.Dim 0) (AffineExpr.Constant 2))).1,
   (cast_wrapper_of_kind (fun _ => true)
      (AffineExpr.CeilDiv (AffineExpr.Dim 0) (AffineExpr.Constant 2))).1,
   (cast_wrapper_of_kind (fun _ => true)
      (AffineExpr.Add (AffineExpr.Dim 0) (AffineExpr.Constant 1))).2.2.2.2.2.2.2.1 _
     (cast_wrapper_of_kind (fun _ => true)
      (AffineExpr.Add (AffineExpr.Dim 0) (AffineExpr.Constant 1))).1⟩

/-! ## A load or store in a single loop from 0 to 10 -/

theorem getIndexSet_loopZeroToTen (iv : Value) (domain : FlatAffineValueConstraints) :
    Model.getIndexSet [loopZeroToTen iv] domain =
      (LogicalResult.success,
        { dimValues := [some iv], symbolValues := [], numLocals := 0,
          equalities := [], inequalities := [[1, 0], [-1, 9]] }) := by
  rfl

theorem accessBounds_loopZeroToTen (print : Value → String) (iv : Value) (n m : Nat) :
    accessBounds (Model.host print)
        { dimValues := [some iv], symbolValues := [], numLocals := 0,
          equalities := [], inequalities := [[1, 0], [-1, 9]],
          numDomainDims := n, numRangeDims := m } =
      [(iv, [("LB", some 0), ("UB", some 9), ("EQ", none)])] := by
  rfl

/-- C8: for a load or store nested in the single loop `for i in [0, 10)` with no
enclosing guards, the iteration domain built by `getOpIndexSet` has one dimension
variable, tagged with `i`, and no symbol; its constant bounds at that variable are
`LB = 0`, `UB = 9` and no `EQ`; and the bounds mapping that `get_access_relation`
returns holds for `i` the entry with `LB = 0`, `UB = 9` and `EQ` none. -/
theorem get_access_relation_single_loop (print : Value → String) (op : Operation)
    (iv : Value)
    (h : op.name = OpName.AffineLoadOp ∨ op.name = OpName.AffineStoreOp)
    (hloop : op.enclosingOps = [loopZeroToTen iv]) :
    (getOpIndexSet (Model.host print) op default).1 = LogicalResult.success ∧
    (getOpIndexSet (Model.host print) op default).2.getNumDimVars = 1 ∧
    (getOpIndexSet (Model.host print) op default).2.getNumSymbolVars = 0 ∧
    (∃ hv : (getOpIndexSet (Model.host print) op default).2.hasValue 0 = true,
      (getOpIndexSet (Model.host print) op default).2.getValue 0 hv = iv) ∧
    Model.getConstantBound (getOpIndexSet (Model.host print) op default).2 BoundType.LB 0
      = some 0 ∧
    Model.getConstantBound (getOpIndexSet (Model.host print) op default).2 BoundType.UB 0
      = some 9 ∧
    Model.getConstantBound (getOpIndexSet (Model.host print) op default).2 BoundType.EQ 0
      = none ∧
    ∃ indices, get_access_relation (Model.host print) (some op) =
      Except.ok ([(iv, [("LB", some 0), ("UB", some 9), ("EQ", none)])], indices) := by
  have hn : op.name = OpName.AffineStoreOp ∨ op.name = OpName.AffineLoadOp := h.symm
  have hdom : getOpIndexSet (Model.host print) op default =
      (LogicalResult.success,
        { dimValues := [some iv], symbolValues := [], numLocals := 0,
          equalities := [], inequalities := [[1, 0], [-1, 9]] }) := by
    unfold getOpIndexSet
    rw [hloop]
    exact getIndexSet_loopZeroToTen iv default
  rw [hdom]
  refine ⟨rfl, rfl, rfl, ⟨rfl, rfl⟩, rfl, rfl, rfl, ?_⟩
  refine ⟨accessIndices (Model.host print) (MemRefAccess.ofOperation op), ?_⟩
  simp only [get_access_relation, hn, if_true, accessDomainRel, hdom]
  rw [accessBounds_loopZeroToTen]

/-- Witness of C8 on the sample load. -/
theorem get_access_relation_single_loop_witness :
    (sampleLoadOp.name = OpName.AffineLoadOp ∨ sampleLoadOp.name = OpName.AffineStoreOp) ∧
    sampleLoadOp.enclosingOps = [loopZeroToTen ⟨1⟩] ∧
    (getOpIndexSet (Model.host samplePrint) sampleLoadOp default).1
      = LogicalResult.success ∧
    (getOpIndexSet (Model.host samplePrint) sampleLoadOp default).2.getNumDimVars = 1 ∧
    (getOpIndexSet (Model.host samplePrint) sampleLoadOp default).2.getNumSymbolVars = 0 ∧
    (∃ hv : (getOpIndexSet (Model.host samplePrint) sampleLoadOp default).2.hasValue 0 = true,
      (getOpIndexSet (Model.host samplePrint) sampleLoadOp default).2.getValue 0 hv = ⟨1⟩) ∧
    Model.getConstantBound
      (getOpIndexSet (Model.host samplePrint) sampleLoadOp default).2 BoundType.LB 0
      = some 0 ∧
    Model.getConstantBound
      (getOpIndexSet (Model.host samplePrint) sampleLoadOp default).2 BoundType.UB 0
      = some 9 ∧
    Model.getConstantBound
      (getOpIndexSet (Model.host samplePrint) sampleLoadOp default).2 BoundType.EQ 0
      = none ∧
    ∃ indices, get_access_relation (Model.host samplePrint) (some sampleLoadOp) =
      Except.ok ([(⟨1⟩, [("LB", some 0), ("UB", some 9), ("EQ", none)])], indices) :=
  ⟨Or.inl rfl, rfl,
   get_access_relation_single_loop samplePrint sampleLoadOp ⟨1⟩ (Or.inl rfl) rfl⟩

/-! ## A failure of the domain construction is dropped -/

/-- For every host and every load or store, `get_access_relation` returns a result
also when `getOpIndexSet` reports failure: the reported outcome is not looked at. -/
theorem get_access_relation_ok_of_failure (host : Host) (op : Operation)
    (h : op.name = OpName.AffineLoadOp ∨ op.name = OpName.AffineStoreOp)
    (_hfail : (getOpIndexSet host op default).1 = LogicalResult.failure) :
    get_access_relation host (some op) =
      Except.ok (accessBounds host (accessDomainRel host op),
        accessIndices host (MemRefAccess.ofOperation op)) := by
  have hn : op.name = OpName.AffineStoreOp ∨ op.name = OpName.AffineLoadOp := h.symm
  simp [get_access_relation, hn]

/-- C6, evaluated at a failing input: for a load inside `affine.for %1 = 0 to %2 * %3`
the construction of the iteration domain reports failure after adding the lower bound
only, and `get_access_relation` still returns a result, with bounds read off the
half-built domain. -/
theorem get_access_relation_after_failed_domain :
    (getOpIndexSet sampleHost sampleProductLoadOp default).1 = LogicalResult.failure ∧
    (getOpIndexSet sampleHost sampleProductLoadOp default).2 =
      { dimValues := [some ⟨1⟩], symbolValues := [some ⟨2⟩, some ⟨3⟩], numLocals := 0,
        equalities := [], inequalities := [[1, 0, 0, 0]] } ∧
    get_access_relation sampleHost (some sampleProductLoadOp) =
      Except.ok
        ([(⟨1⟩, [("LB", some 0), ("UB", none), ("EQ", none)]),
          (⟨2⟩, [("LB", none), ("UB", none), ("EQ", none)]),
          (⟨3⟩, [("LB", none), ("UB", none), ("EQ", none)])],
         [(0, "%arg1")]) := by
  refine ⟨by decide, by decide, ?_⟩
  rfl

end Loopy
